import Mathlib

/-!
# fitsrename: template tokenizer, value resolver and XISF header decoder

A shallow embedding of `main.go` (`token`, `token.convert`, `scanForTokens`, the render
loop of `handleFile`) and of `xisf/decoder.go` (`Decoder.ReadHeader` and its helpers),
followed by theorems about them.

Conventions.
* A Go `string` is modelled as the list of its characters. Every position the program
  computes is the position of an ASCII delimiter, so cutting by characters and cutting by
  bytes select the same substrings.
* Go `int` indices are `Int`; a slice expression whose bounds are out of range panics in
  Go and is an error here.
* `log.Fatalln` and `panic` end the process; they are modelled as an error result.
* Loops that Go runs until a condition fails are given fuel; theorems show that the fuel
  handed out by the entry point is never exhausted.
-/

namespace Fitsrename

deriving instance DecidableEq for Except

/-- Go `string`, as its list of characters. -/
abbrev Str := List Char

/-! ## Go standard library: `strings` -/

/-- Go `strings.Index(s, substr)`: the index of the first instance of `substr` in `s`,
or `-1` if `substr` is not present in `s`. -/
def stringsIndex : Str → Str → Int
  | [], substr => if substr = [] then 0 else -1
  | c :: cs, substr =>
    if substr.isPrefixOf (c :: cs) then 0
    else
      let r := stringsIndex cs substr
      if r < 0 then -1 else r + 1

/-- Go `strings.HasPrefix(s, p)`. -/
def stringsHasPrefix (s p : Str) : Bool := p.isPrefixOf s

/-- Go `unicode.IsSpace`: the white space characters that `strings.TrimSpace` removes. -/
def unicodeIsSpace (c : Char) : Bool :=
  c = '\t' || c = '\n' || c.toNat = 0x0B || c.toNat = 0x0C || c = '\r' || c = ' ' ||
  c.toNat = 0x85 || c.toNat = 0xA0 || c.toNat = 0x1680 ||
  (0x2000 ≤ c.toNat && c.toNat ≤ 0x200A) ||
  c.toNat = 0x2028 || c.toNat = 0x2029 || c.toNat = 0x202F || c.toNat = 0x205F ||
  c.toNat = 0x3000

/-- Go `strings.TrimSpace(s)`: `s` with all leading and trailing white space removed. -/
def stringsTrimSpace (s : Str) : Str :=
  ((s.dropWhile unicodeIsSpace).reverse.dropWhile unicodeIsSpace).reverse

/-- Go `strings.ReplaceAll(s, " ", "_")`: every space of `s` replaced by an underscore. -/
def stringsReplaceAllSpaceUnderscore (s : Str) : Str :=
  s.map (fun c => if c = ' ' then '_' else c)

/-! ## Slice expressions -/

/-- The ways the tokenizer model can stop without a token list. -/
inductive ScanError where
  /-- A slice expression with bounds out of range (a run-time panic in Go). -/
  | sliceOutOfRange
  /-- The loop was cut off by the model before its condition failed. -/
  | outOfFuel
  deriving DecidableEq, Repr

/-- Go `data[lo:hi]`: panics unless `0 ≤ lo ≤ hi ≤ len(data)`. -/
def slice (data : Str) (lo hi : Int) : Except ScanError Str :=
  if 0 ≤ lo ∧ lo ≤ hi ∧ hi ≤ (data.length : Int) then
    .ok ((data.take hi.toNat).drop lo.toNat)
  else .error .sliceOutOfRange

/-- Go `data[lo:]`. -/
def sliceFrom (data : Str) (lo : Int) : Except ScanError Str :=
  slice data lo data.length

/-! ## `main.go`: tokens and the tokenizer -/

/-- The struct `token` of `main.go`: `raw` marks a literal, whose text is in `header`;
otherwise `header` is the keyword and `format` the format specifier (empty if none). -/
structure token where
  raw : Bool
  header : Str
  format : Str
  deriving DecidableEq, Repr

/-- The `for i := 0; i < len(data); i++` loop of `scanForTokens`, started at index `i`
with the tokens collected so far. -/
def scanLoop (data : Str) : Nat → Int → List token → Except ScanError (List token)
  | 0, _, _ => .error .outOfFuel
  | fuel + 1, i, tokens =>
    if ¬ (i < (data.length : Int)) then .ok tokens
    else do
      let rest ← sliceFrom data i
      let nextTokenStart := stringsIndex rest ['{']
      let nextTokenEnd := stringsIndex rest ['}']
      if nextTokenStart = 0 ∧ nextTokenEnd > 0 then
        -- we are inside a {} token, let's look for a format specifier
        let body ← slice data (i + nextTokenStart) (i + nextTokenEnd)
        let formatIndex := stringsIndex body [':']
        if formatIndex > 0 then
          let header ← slice data (i + nextTokenStart + 1) (i + formatIndex)
          let format ← slice data (i + formatIndex + 1) (i + nextTokenEnd)
          scanLoop data fuel (i + nextTokenEnd + 1)
            (tokens ++ [{ raw := false, header := header, format := format }])
        else
          let header ← slice data (i + nextTokenStart + 1) (i + nextTokenEnd)
          scanLoop data fuel (i + nextTokenEnd + 1)
            (tokens ++ [{ raw := false, header := header, format := [] }])
      else if nextTokenStart > 0 then
        let header ← slice data i (i + nextTokenStart)
        scanLoop data fuel (i + nextTokenStart - 1 + 1)
          (tokens ++ [{ raw := true, header := header, format := [] }])
      else
        let header ← sliceFrom data i
        .ok (tokens ++ [{ raw := true, header := header, format := [] }])

/-- The function `scanForTokens` of `main.go`. The index grows by at least one per
iteration, so `len(data) + 1` iterations are enough. -/
def scanForTokens (data : Str) : Except ScanError (List token) :=
  scanLoop data (data.length + 1) 0 []

/-! ## `main.go`: header values and the configuration maps -/

/-- Modelled from the spec: the value stored under a keyword of a `common.Header` (the
package `common` is not among the sources). The spec's `HeaderValue` is the closed union
`Text | Boolean | Integer | Float | Absent`; the constructors below are the dynamic types
that the type switch of `token.convert` tells apart: `nil` is `Absent`, `str` is `Text`,
`int` stands for a Go `int`, `int8`, `int16`, `int32` or `int64` (with its value), `uint`
for the unsigned widths, `float32`/`float64` for the two float widths, and `other` for a
value of any other dynamic type. -/
inductive Value where
  | nil
  | str (s : Str)
  | bool (b : Bool)
  | int (n : Int)
  | uint (n : Nat)
  | float32 (x : Float)
  | float64 (x : Float)
  | other

/-- Modelled from the spec: `common.Header`, the map from keyword to value built by a
decoder (the package `common` is not among the sources). `hdr k = none` means that `k` is
not a key; `hdr k = some Value.nil` means that `k` is a key holding `nil`. -/
abbrev Header := Str → Option Value

/-- The type `defaultMap` of `main.go`, a Go `map[string]string`. -/
abbrev defaultMap := Str → Option Str

/-- Go `m[k]` on a `map[string]string`: the zero value `""` when `k` is not a key. -/
def defaultMap.index (m : defaultMap) (k : Str) : Str := (m k).getD []

/-- Go `m[k] = v` on a header. -/
def Header.set (h : Header) (k : Str) (v : Value) : Header :=
  fun k' => if k' = k then some v else h k'

/-- Go `delete(m, k)` on a header: the same header without the key `k`. -/
def Header.delete (h : Header) (k : Str) : Header :=
  fun k' => if k' = k then none else h k'

/-- The Go standard library functions that `token.convert` calls and that are not modelled
in detail: `fmt.Sprintf` with one argument, `time.ParseInLocation(layout, value, time.UTC)`
(`none` when it returns an error), `Time.Unix`, `Time.Format`, and the conversion
`int64(x)` of a float. -/
structure GoLib (Time : Type) where
  sprintf : Str → Value → Str
  parseInLocationUTC : Str → Str → Option Time
  unix : Time → Int
  format : Time → Str → Str
  int64OfFloat : Float → Int

/-- The ways `main.go` ends the process: the messages with which it calls `log.Fatalln`,
and the `panic` of the debug block of `handleFile`. -/
inductive Fatal where
  /-- The message `file is missing fits header %s`. -/
  | missingHeader (header : Str)
  /-- The message `unable to parse %s as a timestamp`. -/
  | badTimestamp (val : Str)
  /-- The message `uknown type %T for fits header %s`. -/
  | unknownType (header : Str)
  /-- The message `%T is not an int`. -/
  | notAnInt
  /-- The message `%T is not an uint`. -/
  | notAnUInt
  /-- The call `panic(fmt.Sprintf("%T", val))` in the debug block of `handleFile`. -/
  | panic
  deriving DecidableEq, Repr

/-- The function `convertInt` of `main.go`. -/
def convertInt : Value → Except Fatal Int
  | .int n => .ok n
  | _ => .error .notAnInt

/-- The function `convertUInt` of `main.go`. -/
def convertUInt : Value → Except Fatal Nat
  | .uint n => .ok n
  | _ => .error .notAnUInt

/-- Go `val == nil` on an interface value. -/
def Value.isNil : Value → Bool
  | .nil => true
  | _ => false

/-- Go `val == ""` on an interface value: true only for a string that is empty. -/
def Value.isEmptyString : Value → Bool
  | .str [] => true
  | _ => false

/-- The statements `val, ok := hdr[k]; if !ok || val == nil { val = defaults[k] }`. -/
def headerOrDefault (defaults : defaultMap) (hdr : Header) (k : Str) : Value :=
  match hdr k with
  | none => .str (defaults.index k)
  | some v => if v.isNil then .str (defaults.index k) else v

/-- The loop `for _, a := range as` of `token.convert`. Its first statement
`val, ok := hdr[a]` declares a `val` of its own inside the loop body, so the `val` of the
enclosing function, passed here as `outer`, is what the loop leaves behind, unchanged. -/
def aliasLoop (defaults : defaultMap) (hdr : Header) (outer : Value) : List Str → Value
  | [] => outer
  | a :: as =>
    let val := headerOrDefault defaults hdr a
    if !val.isNil then outer  -- break
    else aliasLoop defaults hdr outer as

/-- The two timestamp layouts tried by `token.convert`. -/
def layoutZ : Str := "2006-01-02T15:04:05.999999999Z".toList

/-- The second timestamp layout tried by `token.convert`. -/
def layoutNoZ : Str := "2006-01-02T15:04:05.999999999".toList

/-- The `switch val := val.(type)` of `token.convert`. -/
def token.convertSwitch {Time : Type} (lib : GoLib Time) (t : token) :
    Value → Except Fatal Str
  | .str val =>
    if stringsHasPrefix t.format "date".toList then
      let parsed? :=
        match lib.parseInLocationUTC layoutZ val with
        | some parsed => some parsed
        | none => lib.parseInLocationUTC layoutNoZ val
      match parsed? with
      | none => .error (.badTimestamp val)
      | some parsed =>
        if t.format = "dateunix".toList then
          .ok (lib.sprintf "%d".toList (.int (lib.unix parsed)))
        else .ok (lib.format parsed (t.format.drop 4))
    else .ok (stringsTrimSpace val)
  | .bool val =>
    if t.format = [] then .ok (lib.sprintf "%t".toList (.bool val))
    else .ok (lib.sprintf t.format (.bool val))
  | .int val => do
    let v ← convertInt (.int val)
    if t.format = [] then .ok (lib.sprintf "%d".toList (.int v))
    else if stringsIndex t.format ['f'] > 0 then
      .ok (lib.sprintf t.format (.float64 (Float.ofInt v)))
    else .ok (lib.sprintf t.format (.int val))
  | .uint val => do
    let v ← convertUInt (.uint val)
    if t.format = [] then .ok (lib.sprintf "%d".toList (.uint v))
    else if stringsIndex t.format ['f'] > 0 then
      .ok (lib.sprintf t.format (.float64 (Float.ofNat v)))
    else .ok (lib.sprintf t.format (.uint val))
  | .float32 val =>
    if t.format = [] then .ok (lib.sprintf "%f".toList (.float32 val))
    else if stringsIndex t.format ['d'] > 0 then
      .ok (lib.sprintf t.format (.int (lib.int64OfFloat val)))
    else .ok (lib.sprintf t.format (.float32 val))
  | .float64 val =>
    if t.format = [] then .ok (lib.sprintf "%f".toList (.float64 val))
    else if stringsIndex t.format ['d'] > 0 then
      .ok (lib.sprintf t.format (.int (lib.int64OfFloat val)))
    else .ok (lib.sprintf t.format (.float64 val))
  | .nil => .error (.unknownType t.header)
  | .other => .error (.unknownType t.header)

/-- The method `token.convert` of `main.go`; the package variables `defaults`, `overrides`
and `aliases` are parameters. -/
def token.convert {Time : Type} (lib : GoLib Time) (defaults overrides : defaultMap)
    (aliases : Str → Option (List Str)) (t : token) (hdr : Header) : Except Fatal Str :=
  if t.raw then .ok t.header
  else
    let val := headerOrDefault defaults hdr t.header
    let val :=
      match overrides t.header with
      | some or => Value.str or
      | none => val
    if val.isNil || val.isEmptyString then
      let val :=
        match aliases t.header with
        | some as => aliasLoop defaults hdr val as
        | none => val
      if val.isNil || val.isEmptyString then .error (.missingHeader t.header)
      else t.convertSwitch lib val
    else t.convertSwitch lib val

/-- The variable `aliases` of `main.go`. -/
def aliases : Str → Option (List Str) :=
  fun k => if k = "EXPTIME".toList then some ["EXPOSURE".toList] else none

/-- The loop `for _, tok := range tokens` of `handleFile`, writing to `result`; `noSpace`
is the flag `-no-space`. -/
def renderLoop {Time : Type} (lib : GoLib Time) (defaults overrides : defaultMap)
    (aliases : Str → Option (List Str)) (noSpace : Bool) (hdr : Header) :
    List token → Str → Except Fatal Str
  | [], result => .ok result
  | tok :: tokens, result => do
    let item ← tok.convert lib defaults overrides aliases hdr
    let item := if noSpace then stringsReplaceAllSpaceUnderscore item else item
    renderLoop lib defaults overrides aliases noSpace hdr tokens (result ++ item)

/-- The frame classes, the keys of `tokensByType`. -/
inductive FrameClass where
  | LIGHT | DARK | FLAT | BIAS
  deriving DecidableEq, Repr

/-- The `switch imgType` of `handleFile`. -/
def classify (imgType : Str) : Option FrameClass :=
  if imgType = "Light Frame".toList ∨ imgType = "Tricolor Image".toList ∨
      imgType = "Light".toList ∨ imgType = "LIGHT".toList then some .LIGHT
  else if imgType = "Dark Frame".toList ∨ imgType = "Dark".toList ∨
      imgType = "DARK".toList then some .DARK
  else if imgType = "Flat Frame".toList ∨ imgType = "Flat".toList ∨
      imgType = "FLAT".toList then some .FLAT
  else if imgType = "Bias Frame".toList ∨ imgType = "Bias".toList ∨
      imgType = "BIAS".toList then some .BIAS
  else none

/-- The part of `handleFile` from `t, ok := hdr["IMAGETYP"]` to the `switch imgType`:
the frame class of a header, `none` where `handleFile` logs and returns. -/
def frameClass (hdr : Header) : Option FrameClass :=
  let t? : Option Value :=
    match hdr "IMAGETYP".toList with
    | none => hdr "FRAME".toList
    | some t => if t.isNil then hdr "FRAME".toList else some t
  match t? with
  | none => none
  | some (.str imgType) => classify imgType
  | some _ => none

/-- The loop `for key, v := range hdr` of the block `if *debug` of `handleFile`, over
the keys of the header: a string, a boolean, an integer of any width or a float is
printed; the `default` of the type switch, which is where `nil` and every other type
end up, logs the type and panics. -/
def debugLoop (hdr : Header) : List Str → Except Fatal Unit
  | [] => .ok ()
  | key :: keys =>
    match hdr key with
    | none => debugLoop hdr keys  -- not a key of the map, not visited
    | some (.str _) => debugLoop hdr keys
    | some (.bool _) => debugLoop hdr keys
    | some (.int _) => debugLoop hdr keys
    | some (.uint _) => debugLoop hdr keys
    | some (.float32 _) => debugLoop hdr keys
    | some (.float64 _) => debugLoop hdr keys
    | some .nil => .error .panic
    | some .other => .error .panic

/-- The function `handleFile` of `main.go` from the header on, up to the rendered name
(before the file number suffix): `.ok none` where the file is skipped, `.ok (some name)`
where it is renamed, `.error` where `log.Fatalln` or `panic` is called. `debug` and
`noSpace` are the flags `-debug` and `-no-space`; `keys` are the keys of `hdr`, which the
debug block ranges over. -/
def handleFile {Time : Type} (lib : GoLib Time) (defaults overrides : defaultMap)
    (aliases : Str → Option (List Str)) (debug noSpace : Bool)
    (tokensByType : FrameClass → List token) (keys : List Str) (hdr : Header) :
    Except Fatal (Option Str) := do
  if debug then debugLoop hdr keys
  match frameClass hdr with
  | none => .ok none
  | some c =>
    let tokens := tokensByType c
    if tokens = [] then .ok none
    else do
      let result ← renderLoop lib defaults overrides aliases noSpace hdr tokens []
      .ok (some result)

/-! ## Go standard library: `regexp` and `strconv` -/

/-- The regular expressions needed for the two patterns of `xisf/decoder.go`. Both
patterns are anchored as `^...$`, so only whole-string matching is modelled; `cls p` is a
single character satisfying `p`. -/
inductive Regexp where
  | empty
  | epsilon
  | cls (p : Char → Bool)
  | alt (r s : Regexp)
  | cat (r s : Regexp)
  | star (r : Regexp)

/-- Whether a regular expression matches the empty string. -/
def Regexp.matchEpsilon : Regexp → Bool
  | .empty => false
  | .epsilon => true
  | .cls _ => false
  | .alt r s => r.matchEpsilon || s.matchEpsilon
  | .cat r s => r.matchEpsilon && s.matchEpsilon
  | .star _ => true

/-- The derivative of a regular expression by a character: what remains to be matched
after `c`. -/
def Regexp.deriv : Regexp → Char → Regexp
  | .empty, _ => .empty
  | .epsilon, _ => .empty
  | .cls p, c => if p c then .epsilon else .empty
  | .alt r s, c => .alt (r.deriv c) (s.deriv c)
  | .cat r s, c =>
    if r.matchEpsilon then .alt (.cat (r.deriv c) s) (s.deriv c) else .cat (r.deriv c) s
  | .star r, c => .cat (r.deriv c) (.star r)

/-- Go `re.MatchString(s)` for a pattern `^r$`: whether the whole of `s` matches `r`. -/
def Regexp.MatchString : Regexp → Str → Bool
  | r, [] => r.matchEpsilon
  | r, c :: cs => (r.deriv c).MatchString cs

/-- The pattern `\d`: an ASCII digit. -/
def isDigit (c : Char) : Bool := decide ('0' ≤ c) && decide (c ≤ '9')

/-- The variable `stringRegex` of `xisf/decoder.go`, the pattern `^\'.*?\'$`: a quote, any
characters other than a line feed (`.` without the `s` flag), a quote. -/
def stringRegex : Regexp :=
  .cat (.cls (fun c => c == '\''))
    (.cat (.star (.cls (fun c => c != '\n'))) (.cls (fun c => c == '\'')))

/-- The variable `integerRegex` of `xisf/decoder.go`, the pattern `^[\+\-]?\d+$`. -/
def integerRegex : Regexp :=
  .cat (.alt (.cls (fun c => c == '+' || c == '-')) .epsilon)
    (.cat (.cls isDigit) (.star (.cls isDigit)))

/-- The two kinds of error of `strconv`: `ErrSyntax` and `ErrRange`. -/
inductive NumError where
  | ErrSyntax
  | ErrRange
  deriving DecidableEq, Repr

/-- The largest `uint64`. -/
def maxUint64 : Nat := 2 ^ 64 - 1

/-- The digit loop of Go `strconv.ParseUint(s, 10, 64)`, with `n` the value so far. For
base 10 the cutoff is `maxUint64/10 + 1`, and a letter is a digit value of at least 10,
refused like any other character that is not a decimal digit. Arithmetic is that of
`uint64`. -/
def parseUintLoop : Str → Nat → Nat × Option NumError
  | [], n => (n, none)
  | c :: cs, n =>
    if isDigit c then
      let d := c.toNat - '0'.toNat
      if n ≥ maxUint64 / 10 + 1 then (maxUint64, some .ErrRange)  -- n*base overflows
      else
        let n := (n * 10) % 2 ^ 64
        let n1 := (n + d) % 2 ^ 64
        if n1 < n ∨ n1 > maxUint64 then (maxUint64, some .ErrRange)  -- n+d overflows
        else parseUintLoop cs n1
    else (0, some .ErrSyntax)

/-- Go `strconv.ParseUint(s, 10, 64)`. -/
def strconvParseUint (s : Str) : Nat × Option NumError :=
  if s = [] then (0, some .ErrSyntax) else parseUintLoop s 0

/-- Go `strconv.ParseInt(s, 10, 64)`: the value returned and the error, if any. -/
def strconvParseInt (s : Str) : Int × Option NumError :=
  match s with
  | [] => (0, some .ErrSyntax)
  | c :: cs =>
    -- Pick off leading sign.
    let neg := c = '-'
    let s := if c = '+' ∨ c = '-' then cs else c :: cs
    -- Convert unsigned and check range.
    let (un, err) := strconvParseUint s
    if err = some .ErrSyntax then (0, err)
    else
      let cutoff : Nat := 2 ^ 63
      if ¬ neg ∧ un ≥ cutoff then ((cutoff : Int) - 1, some .ErrRange)
      else if neg ∧ un > cutoff then (-(cutoff : Int), some .ErrRange)
      else if neg then (-(un : Int), none) else ((un : Int), none)

/-! ## `xisf/decoder.go` -/

/-- The struct `FITSKeyword` of `xisf/decoder.go` (without `XMLName`). -/
structure FITSKeyword where
  Name : Str
  Value : Str
  Comment : Str
  deriving DecidableEq, Repr

/-- The struct `Image` of `xisf/decoder.go`. -/
structure Image where
  FITSKeywords : List FITSKeyword
  deriving DecidableEq, Repr

/-- The struct `Xisf` of `xisf/decoder.go`. -/
structure Xisf where
  Image : Image
  deriving DecidableEq, Repr

/-- The errors `ReadHeader` can return, and a run-time panic. -/
inductive DecodeError where
  /-- The reader returned `io.EOF`. -/
  | EOF
  /-- The error `invalid signature length`. -/
  | invalidSignatureLength
  /-- The error `invalid signature content`. -/
  | invalidSignatureContent
  /-- The error `invalid header length`. -/
  | invalidHeaderLength
  /-- The error returned by `xml.Unmarshal`. -/
  | xmlError
  /-- A slice expression out of range. -/
  | panic
  deriving DecidableEq, Repr

/-- The struct `Decoder`: its reader `rdr`, as the bytes (values 0 to 255) it has not
yet handed out. -/
structure Decoder where
  rdr : List Nat
  deriving DecidableEq, Repr

/-- The call `d.rdr.Read(buf)` with `len(buf) = count`, for a reader that behaves as an
opened file: nothing is read and no error returned when `count` is 0; `io.EOF` at the end
of the data; otherwise as many bytes as are left, up to `count`. Returns the buffer after
the call, the number of bytes read, the error, and the decoder afterwards. -/
def Decoder.Read (d : Decoder) (count : Nat) :
    List Nat × Nat × Option DecodeError × Decoder :=
  if count = 0 then ([], 0, none, d)
  else if d.rdr = [] then (List.replicate count 0, 0, some .EOF, d)
  else
    let got := d.rdr.take count
    (got ++ List.replicate (count - got.length) 0, got.length, none,
      { rdr := d.rdr.drop count })

/-- The bytes of `[]byte("XISF0100")`. -/
def signatureBytes : List Nat := "XISF0100".toList.map Char.toNat

/-- The method `Decoder.checkSignature`: the error (`none` for `nil`) and the decoder
afterwards. -/
def Decoder.checkSignature (d : Decoder) : Option DecodeError × Decoder :=
  let (signature, n, err, d) := d.Read 8
  if err.isSome then (err, d)
  else if n ≠ 8 then (some .invalidSignatureLength, d)
  else if ¬ (signatureBytes = signature) then (some .invalidSignatureContent, d)
  else (none, d)

/-- Go `binary.LittleEndian.Uint32(b)`. -/
def littleEndianUint32 (b : List Nat) : Nat :=
  b.getD 0 0 + b.getD 1 0 * 2 ^ 8 + b.getD 2 0 * 2 ^ 16 + b.getD 3 0 * 2 ^ 24

/-- The method `Decoder.getHeaderLength`. -/
def Decoder.getHeaderLength (d : Decoder) : Nat × Option DecodeError × Decoder :=
  let (headerLengthBytes, n, err, d) := d.Read 4
  if err.isSome then (0, err, d)
  else if n ≠ 4 then (0, some .invalidHeaderLength, d)
  else (littleEndianUint32 headerLengthBytes, none, d)

/-- The method `Decoder.skipReserved`. -/
def Decoder.skipReserved (d : Decoder) (count : Nat) : Option DecodeError × Decoder :=
  let (_, n, err, d) := d.Read count
  if err.isSome then (err, d)
  else if n ≠ count then (some .invalidHeaderLength, d)
  else (none, d)

/-- The body of the loop `for _, kw := range img.Image.FITSKeywords` of `ReadHeader`:
the header after the record `kw`. `parseFloat` is `strconv.ParseFloat(s, 64)`, `none`
when it returns an error. -/
def keywordStep (parseFloat : Str → Option Float) (h : Header) (kw : FITSKeyword) :
    Except DecodeError Header :=
  if kw.Value.length = 0 then .ok (h.set kw.Name .nil)
  else if stringRegex.MatchString kw.Value then
    match slice kw.Value 1 ((kw.Value.length : Int) - 1) with
    | .ok s => .ok (h.set kw.Name (.str s))
    | .error _ => .error .panic
  else if integerRegex.MatchString kw.Value then
    .ok (h.set kw.Name (.int (strconvParseInt kw.Value).1))
  else if kw.Value = ['T'] then .ok (h.set kw.Name (.bool true))
  else if kw.Value = ['F'] then .ok (h.set kw.Name (.bool false))
  else
    match parseFloat kw.Value with
    | none => .ok h  -- println(err.Error()); continue
    | some val => .ok (h.set kw.Name (.float64 val))

/-- The loop `for _, kw := range img.Image.FITSKeywords` of `ReadHeader`. -/
def keywordLoop (parseFloat : Str → Option Float) :
    List FITSKeyword → Header → Except DecodeError Header
  | [], h => .ok h
  | kw :: kws, h => do
    let h ← keywordStep parseFloat h kw
    keywordLoop parseFloat kws h

/-- The part of `ReadHeader` before `xml.Unmarshal`: the bytes of `rawHeader`. -/
def Decoder.readRawHeader (d : Decoder) : Except DecodeError (List Nat) :=
  match d.checkSignature with
  | (some err, _) => .error err
  | (none, d) =>
    match d.getHeaderLength with
    | (_, some err, _) => .error err
    | (headerLen, none, d) =>
      match d.skipReserved 4 with
      | (some err, _) => .error err
      | (none, d) =>
        let (rawHeader, n, err, _) := d.Read headerLen
        match err with
        | some err => .error err
        | none =>
          if n ≠ headerLen then .error .invalidHeaderLength
          else .ok rawHeader

/-- The method `Decoder.ReadHeader`; `xmlUnmarshal` is `xml.Unmarshal(rawHeader, &img)`
(`none` when it returns an error) and `parseFloat` is `strconv.ParseFloat(s, 64)`. -/
def Decoder.ReadHeader (xmlUnmarshal : List Nat → Option Xisf)
    (parseFloat : Str → Option Float) (d : Decoder) : Except DecodeError Header := do
  let rawHeader ← d.readRawHeader
  match xmlUnmarshal rawHeader with
  | none => .error .xmlError
  | some img => keywordLoop parseFloat img.Image.FITSKeywords (fun _ => none)

/-! ## The round trip of the spec -/

/-- The text of one token, as the tokenizer round trip of the spec writes it back: a
literal as its text, a placeholder with empty format as `{keyword}`, a placeholder with a
non-empty format as `{keyword:format}`. -/
def token.writeBack (t : token) : Str :=
  if t.raw then t.header
  else if t.format = [] then '{' :: t.header ++ ['}']
  else '{' :: t.header ++ ':' :: t.format ++ ['}']

/-- The texts of the tokens of a sequence, concatenated in sequence order. -/
def writeBack : List token → Str
  | [] => []
  | t :: ts => t.writeBack ++ writeBack ts

/-- Where a left-to-right reading of a format string stands with respect to placeholder
bodies: outside any body; inside a body that has no `:` so far; inside a body whose first
`:` is the character just read; inside a body whose first `:` came earlier. -/
inductive BodyState where
  | outside
  | noColon
  | colonLast
  | colonEarlier
  deriving DecidableEq, Repr

/-- Whether, reading on from the given state, some placeholder body is closed by `}`
directly after its first `:`. A body opens at a `{` read outside any body and closes at
the next `}`; a body that is never closed is no placeholder. -/
def colonBeforeClose : BodyState → Str → Bool
  | _, [] => false
  | .outside, c :: cs =>
    if c = '{' then colonBeforeClose .noColon cs else colonBeforeClose .outside cs
  | .noColon, c :: cs =>
    if c = '}' then colonBeforeClose .outside cs
    else if c = ':' then colonBeforeClose .colonLast cs
    else colonBeforeClose .noColon cs
  | .colonLast, c :: cs =>
    if c = '}' then true else colonBeforeClose .colonEarlier cs
  | .colonEarlier, c :: cs =>
    if c = '}' then colonBeforeClose .outside cs else colonBeforeClose .colonEarlier cs

/-- Whether some placeholder of the format string has its first `:` directly before its
closing `}`, as in `{A:}`: a colon followed by an empty format. -/
def hasEmptyFormatAfterColon (s : Str) : Bool := colonBeforeClose .outside s

/-! ## The type inference of the spec -/

/-- The number that a string of decimal digits denotes. -/
def digitsValue (ds : Str) : Nat :=
  ds.foldl (fun n c => 10 * n + (c.toNat - '0'.toNat)) 0

/-- The mathematical integer that a string matching the integer pattern denotes: an
optional sign followed by decimal digits. -/
def denotedInteger : Str → Int
  | [] => 0
  | c :: cs =>
    if c = '-' then -(digitsValue cs : Int)
    else if c = '+' then (digitsValue cs : Int)
    else (digitsValue (c :: cs) : Int)

/-- The value the spec infers from the value string of a keyword record, by its rules in
priority order: empty, quoted, integer, `T`, `F`, float; `none` when no rule recognises
the string. -/
def inferredValue (parseFloat : Str → Option Float) (v : Str) : Option Value :=
  if v = [] then some .nil
  else if stringRegex.MatchString v then some (.str (v.drop 1).dropLast)
  else if integerRegex.MatchString v then some (.int (strconvParseInt v).1)
  else if v = ['T'] then some (.bool true)
  else if v = ['F'] then some (.bool false)
  else (parseFloat v).map Value.float64

/-- The value of the last record named `n` that the inference rules recognise, `none`
when there is none. -/
def lastRecognised (parseFloat : Str → Option Float) : List FITSKeyword → Str → Option Value
  | [], _ => none
  | kw :: kws, n =>
    match lastRecognised parseFloat kws n with
    | some v => some v
    | none => if kw.Name = n then inferredValue parseFloat kw.Value else none

/-! ## Go standard library: `time`, on the layouts of `token.convert` -/

/-- A Go `time.Time` in the location UTC, as its calendar fields and nanoseconds. -/
structure Time where
  year : Nat
  month : Nat
  day : Nat
  hour : Nat
  min : Nat
  sec : Nat
  nsec : Nat
  deriving DecidableEq, Repr

/-- The chunks (of `nextStdChunk` in Go's `time/format.go`) that the model knows: the
reference-time elements `2006`, `01`, `02`, `15`, `04`, `05`, the fraction `.999999999`,
and a literal character. -/
inductive LayoutChunk where
  | stdLongYear
  | stdZeroMonth
  | stdZeroDay
  | stdHour
  | stdZeroMinute
  | stdZeroSecond
  | stdFracSecond9
  | literal (c : Char)
  deriving DecidableEq, Repr

/-- The characters at which Go's `nextStdChunk` looks for a layout element (and the
space, which `Parse` treats specially). -/
def startsLayoutElement (c : Char) : Bool :=
  c = 'J' || c = 'M' || c = '0' || c = '1' || c = '2' || c = '_' || c = '3' || c = '4' ||
  c = '5' || c = 'P' || c = 'p' || c = '-' || c = 'Z' || c = '.' || c = ',' || c = ' '

/-- The chunks of a layout, `none` for a layout with an element outside the model. A `-`
or `Z` that is not followed by `07` is a literal, as in Go. -/
def layoutChunks : Str → Option (List LayoutChunk)
  | [] => some []
  | '2' :: '0' :: '0' :: '6' :: rest => (layoutChunks rest).map (.stdLongYear :: ·)
  | '0' :: '1' :: rest => (layoutChunks rest).map (.stdZeroMonth :: ·)
  | '0' :: '2' :: rest => (layoutChunks rest).map (.stdZeroDay :: ·)
  | '1' :: '5' :: rest => (layoutChunks rest).map (.stdHour :: ·)
  | '0' :: '4' :: rest => (layoutChunks rest).map (.stdZeroMinute :: ·)
  | '0' :: '5' :: rest => (layoutChunks rest).map (.stdZeroSecond :: ·)
  | '.' :: '9' :: '9' :: '9' :: '9' :: '9' :: '9' :: '9' :: '9' :: '9' :: rest =>
    if (rest.head?.map isDigit).getD false then none
    else (layoutChunks rest).map (.stdFracSecond9 :: ·)
  | c :: rest =>
    if (c = '-' ∨ c = 'Z') ∧ ¬ ("07".toList.isPrefixOf rest) then
      (layoutChunks rest).map (.literal c :: ·)
    else if startsLayoutElement c then none
    else (layoutChunks rest).map (.literal c :: ·)

/-- Go `getnum(s, fixed)` of `time/format.go`: one or two digits (exactly two when
`fixed`), and the rest of the string. -/
def getnum (s : Str) (fixed : Bool) : Option (Nat × Str) :=
  match s with
  | a :: b :: rest =>
    if isDigit a then
      if isDigit b then some ((a.toNat - '0'.toNat) * 10 + (b.toNat - '0'.toNat), rest)
      else if fixed then none else some (a.toNat - '0'.toNat, b :: rest)
    else none
  | [a] => if isDigit a ∧ ¬ fixed then some (a.toNat - '0'.toNat, []) else none
  | [] => none

/-- Go `isLeap(year)`. -/
def isLeap (year : Nat) : Bool := year % 4 = 0 && (year % 100 ≠ 0 || year % 400 = 0)

/-- Go `daysIn(month, year)`. -/
def daysIn (month year : Nat) : Nat :=
  if month = 2 then (if isLeap year then 29 else 28)
  else if month = 4 ∨ month = 6 ∨ month = 9 ∨ month = 11 then 30
  else 31

/-- The fields collected by `time.Parse`; a month or day missing from the layout is 1. -/
structure ParseState where
  year : Nat := 0
  month : Option Nat := none
  day : Option Nat := none
  hour : Nat := 0
  min : Nat := 0
  sec : Nat := 0
  nsec : Nat := 0

/-- Whether the next element of the layout, after any literal characters, is the
fractional second. -/
def nextIsFracSecond : List LayoutChunk → Bool
  | .literal _ :: cs => nextIsFracSecond cs
  | .stdFracSecond9 :: _ => true
  | _ => false

/-- The loop of Go `time.Parse` over the chunks of the layout, followed by its final
checks (no text left over, day within the month); `none` where `Parse` returns an
error. -/
def parseChunks : List LayoutChunk → ParseState → Str → Option Time
  | [], st, value =>
    if value ≠ [] then none  -- extra text
    else
      let month := st.month.getD 1
      let day := st.day.getD 1
      if day < 1 ∨ day > daysIn month st.year then none  -- day out of range
      else some { year := st.year, month := month, day := day, hour := st.hour,
                  min := st.min, sec := st.sec, nsec := st.nsec }
  | .literal c :: cs, st, value =>
    match value with
    | v :: rest => if v = c then parseChunks cs st rest else none
    | [] => none
  | .stdLongYear :: cs, st, value =>
    match value with
    | a :: b :: c :: d :: rest =>
      if isDigit a ∧ isDigit b ∧ isDigit c ∧ isDigit d then
        parseChunks cs { st with year := digitsValue [a, b, c, d] } rest
      else none
    | _ => none
  | .stdZeroMonth :: cs, st, value =>
    match getnum value true with
    | some (month, rest) =>
      if month ≤ 0 ∨ 12 < month then none
      else parseChunks cs { st with month := some month } rest
    | none => none
  | .stdZeroDay :: cs, st, value =>
    match getnum value true with
    | some (day, rest) => parseChunks cs { st with day := some day } rest
    | none => none
  | .stdHour :: cs, st, value =>
    match getnum value false with
    | some (hour, rest) =>
      if 24 ≤ hour then none else parseChunks cs { st with hour := hour } rest
    | none => none
  | .stdZeroMinute :: cs, st, value =>
    match getnum value true with
    | some (min, rest) =>
      if 60 ≤ min then none else parseChunks cs { st with min := min } rest
    | none => none
  | .stdZeroSecond :: cs, st, value =>
    match getnum value true with
    | some (sec, rest) =>
      if 60 ≤ sec then none
      else
        match rest with
        | p :: d :: more =>
          if (p = '.' ∨ p = ',') ∧ isDigit d ∧ ¬ nextIsFracSecond cs then
            -- a fractional second in the value but none in the layout
            let used := ((d :: more).takeWhile isDigit).take 9
            parseChunks cs
              { st with sec := sec, nsec := digitsValue used * 10 ^ (9 - used.length) }
              ((d :: more).dropWhile isDigit)
          else parseChunks cs { st with sec := sec } rest
        | _ => parseChunks cs { st with sec := sec } rest
    | none => none
  | .stdFracSecond9 :: cs, st, value =>
    match value with
    | p :: d :: rest =>
      if (p = '.' ∨ p = ',') ∧ isDigit d then
        -- take any number of digits; the first nine count
        let digits := (d :: rest).takeWhile isDigit
        let used := digits.take 9
        let ns := digitsValue used * 10 ^ (9 - used.length)
        parseChunks cs { st with nsec := ns } ((d :: rest).dropWhile isDigit)
      else parseChunks cs st value  -- fractional second omitted
    | _ => parseChunks cs st value

/-- Go `time.ParseInLocation(layout, value, time.UTC)` for a layout made of the chunks of
`LayoutChunk`; `none` where it returns an error (and for a layout outside the model). -/
def timeParseInLocationUTC (layout value : Str) : Option Time :=
  match layoutChunks layout with
  | some cs => parseChunks cs {} value
  | none => none

/-- The number of days from 1970-01-01 to a date of the proleptic Gregorian calendar. -/
def daysSinceEpoch (year month day : Nat) : Int :=
  let y : Int := if month ≤ 2 then (year : Int) - 1 else year
  let era : Int := y / 400
  let yoe : Int := y - era * 400
  let mp : Int := if month ≤ 2 then (month : Int) + 9 else (month : Int) - 3
  let doy : Int := (153 * mp + 2) / 5 + (day : Int) - 1
  let doe : Int := yoe * 365 + yoe / 4 - yoe / 100 + doy
  era * 146097 + doe - 719468

/-- Go `t.Unix()`: the seconds since 1970-01-01 00:00:00 UTC. -/
def Time.Unix (t : Time) : Int :=
  daysSinceEpoch t.year t.month t.day * 86400 + t.hour * 3600 + t.min * 60 + t.sec

/-- Go `appendInt(b, x, width)` for `x ≥ 0`: the decimal digits, zero-padded to `width`. -/
def appendInt (x width : Nat) : Str :=
  let ds := Nat.toDigits 10 x
  List.replicate (width - ds.length) '0' ++ ds

/-- The text Go `t.Format` writes for one chunk. -/
def formatChunk (t : Time) : LayoutChunk → Str
  | .stdLongYear => appendInt t.year 4
  | .stdZeroMonth => appendInt t.month 2
  | .stdZeroDay => appendInt t.day 2
  | .stdHour => appendInt t.hour 2
  | .stdZeroMinute => appendInt t.min 2
  | .stdZeroSecond => appendInt t.sec 2
  | .stdFracSecond9 =>
    -- nine digits with the trailing zeros trimmed, nothing at all for zero
    let ds := ((appendInt t.nsec 9).reverse.dropWhile (· = '0')).reverse
    if ds = [] then [] else '.' :: ds
  | .literal c => [c]

/-- Go `t.Format(layout)` for a layout made of the chunks of `LayoutChunk` (empty for a
layout outside the model). -/
def Time.Format (t : Time) (layout : Str) : Str :=
  match layoutChunks layout with
  | some cs => (cs.map (formatChunk t)).flatten
  | none => []

/-- Go `fmt.Sprintf("%d", n)` for an integer: the plain decimal representation. -/
def formatDecimal (n : Int) : Str :=
  if n < 0 then '-' :: Nat.toDigits 10 n.natAbs else Nat.toDigits 10 n.natAbs

/-! ## Further notions of the spec -/

/-- The four bytes of `n` as an unsigned 32-bit little-endian integer. -/
def uint32LittleEndian (n : Nat) : List Nat :=
  [n % 256, n / 2 ^ 8 % 256, n / 2 ^ 16 % 256, n / 2 ^ 24 % 256]

/-- The value that the resolution steps 1 to 3 of the spec arrive at for a keyword: the
override if there is one, else the header value if the key is present and not Absent,
else the default (the empty text when there is none). -/
def resolvedValue (defaults overrides : defaultMap) (hdr : Header) (k : Str) : Value :=
  match overrides k with
  | some o => .str o
  | none =>
    match hdr k with
    | some .nil => .str ((defaults k).getD [])
    | some v => v
    | none => .str ((defaults k).getD [])

/-- The spellings of `IMAGETYP` or `FRAME` that `handleFile` recognises for a class. -/
def recognisedSpellings : FrameClass → List Str
  | .LIGHT => ["Light Frame".toList, "Tricolor Image".toList, "Light".toList, "LIGHT".toList]
  | .DARK => ["Dark Frame".toList, "Dark".toList, "DARK".toList]
  | .FLAT => ["Flat Frame".toList, "Flat".toList, "FLAT".toList]
  | .BIAS => ["Bias Frame".toList, "Bias".toList, "BIAS".toList]

/-- The well-formedness of a token of `scanForTokens`: a literal has a non-empty text, a
placeholder has a keyword without `}` and `:` and a format without `}`. -/
def token.wellFormed (t : token) : Prop :=
  if t.raw then t.header ≠ []
  else '}' ∉ t.header ∧ ':' ∉ t.header ∧ '}' ∉ t.format

/-! ## Concrete inputs used by the evaluations below -/

/-- A library instance for evaluations that never reach the library: every function
returns an empty result. -/
def noLib : GoLib Unit where
  sprintf := fun _ _ => []
  parseInLocationUTC := fun _ _ => none
  unix := fun _ => 0
  format := fun _ _ => []
  int64OfFloat := fun _ => 0

/-- The map without keys. -/
def emptyMap : defaultMap := fun _ => none

/-- The header without keys. -/
def emptyHeader : Header := fun _ => none

/-- A `strconv.ParseFloat` for evaluations on strings that are not numbers: it returns
an error on every string. -/
def noFloat : Str → Option Float := fun _ => none

/-- An `xml.Unmarshal` for evaluations: whatever the payload, the image has the three
records `FILTER = 'L'`, `FILTER = ?` and `EXPTIME = 600`. -/
def sampleUnmarshal : List Nat → Option Xisf := fun _ =>
  some { Image := { FITSKeywords :=
    [⟨"FILTER".toList, "'L'".toList, []⟩, ⟨"FILTER".toList, "?".toList, []⟩,
     ⟨"EXPTIME".toList, "600".toList, []⟩] } }

/-- A library instance whose `sprintf` shows which kind of argument it was given: the
format followed by the name of the argument's type. -/
def tagLib : GoLib Unit where
  sprintf := fun f v =>
    f ++ (match v with
      | .int _ => "(int64)".toList
      | .float64 _ => "(float64)".toList
      | _ => "(other)".toList)
  parseInLocationUTC := fun _ _ => none
  unix := fun _ => 0
  format := fun _ _ => []
  int64OfFloat := fun _ => 0

/-- The library with the model of `time`, and with `fmt.Sprintf` as far as the model
goes: the verb `%d` alone, on an integer (empty otherwise). -/
def timeLib : GoLib Time where
  sprintf := fun f v =>
    match v with
    | .int n => if f = "%d".toList then formatDecimal n else []
    | _ => []
  parseInLocationUTC := timeParseInLocationUTC
  unix := Time.Unix
  format := Time.Format
  int64OfFloat := fun _ => 0

/-! ## Theorems: `token.convert` -/

/-- C1 (evaluation at the failing input): with the header `EXPOSURE: Float(600.0)`, no
`EXPTIME` key, no defaults, no overrides and the alias `EXPTIME -> [EXPOSURE]` of
`main.go`, resolving the placeholder `EXPTIME` with any format and any library ends in
the missing-header error for `EXPTIME`: the alias is looked up but its value is dropped. -/
theorem convert_alias_exposure_is_missing {Time : Type} (lib : GoLib Time) (format : Str) :
    token.convert lib emptyMap emptyMap aliases
        { raw := false, header := "EXPTIME".toList, format := format }
        (emptyHeader.set "EXPOSURE".toList (.float64 600.0))
      = .error (.missingHeader "EXPTIME".toList) := by
  simp [token.convert, headerOrDefault, Header.set, emptyHeader, emptyMap, aliases,
    aliasLoop, defaultMap.index, Value.isNil, Value.isEmptyString]

/-- C2: when `overrides[k]` is a non-empty text `x` and the format does not start with
`date`, the placeholder for `k` renders as `x` with the surrounding white space trimmed,
whatever the header and the defaults hold for `k`. -/
theorem convert_override_wins {Time : Type} (lib : GoLib Time)
    (defaults overrides : defaultMap) (als : Str → Option (List Str)) (hdr : Header)
    (k x format : Str) (hov : overrides k = some x) (hx : x ≠ [])
    (hfmt : stringsHasPrefix format "date".toList = false) :
    token.convert lib defaults overrides als
        { raw := false, header := k, format := format } hdr
      = .ok (stringsTrimSpace x) := by
  obtain ⟨c, cs, rfl⟩ := List.exists_cons_of_ne_nil hx
  simp only [token.convert, hov, Value.isNil, Value.isEmptyString, token.convertSwitch, hfmt]
  simp

/-- C2 (witness): header `FILTER: Text("L")`, no defaults, override `FILTER = X` gives
`X`. -/
theorem convert_override_wins_witness :
    token.convert noLib emptyMap
        (fun k => if k = "FILTER".toList then some "X".toList else none) aliases
        { raw := false, header := "FILTER".toList, format := [] }
        (emptyHeader.set "FILTER".toList (.str "L".toList))
      = .ok (stringsTrimSpace "X".toList) ∧ stringsTrimSpace "X".toList = "X".toList :=
  ⟨convert_override_wins noLib emptyMap _ aliases _ "FILTER".toList "X".toList []
    (by decide) (by decide) (by decide), by decide⟩

/-- C7: a keyword that is a key of neither the header, the defaults, the overrides nor
the aliases makes the placeholder fail with the missing-header error naming it; no text
is produced. -/
theorem convert_missing_everywhere {Time : Type} (lib : GoLib Time)
    (defaults overrides : defaultMap) (als : Str → Option (List Str)) (hdr : Header)
    (k format : Str) (hh : hdr k = none) (hd : defaults k = none)
    (ho : overrides k = none) (ha : als k = none) :
    token.convert lib defaults overrides als
        { raw := false, header := k, format := format } hdr
      = .error (.missingHeader k) := by
  simp [token.convert, headerOrDefault, hh, hd, ho, ha, defaultMap.index,
    Value.isNil, Value.isEmptyString]

/-- C7 (witness): `OBJECT` is nowhere: the header only has `FILTER`, and `aliases` only
knows `EXPTIME`. -/
theorem convert_missing_everywhere_witness :
    token.convert noLib emptyMap emptyMap aliases
        { raw := false, header := "OBJECT".toList, format := "%s".toList }
        (emptyHeader.set "FILTER".toList (.str "L".toList))
      = .error (.missingHeader "OBJECT".toList) :=
  convert_missing_everywhere noLib emptyMap emptyMap aliases _ "OBJECT".toList
    "%s".toList rfl (by decide) (by decide) (by decide)

theorem headerOrDefault_set_nil (defaults : defaultMap) (hdr : Header) (k a : Str) :
    headerOrDefault defaults (hdr.set k .nil) a
      = headerOrDefault defaults (hdr.delete k) a := by
  unfold headerOrDefault Header.set Header.delete
  by_cases h : a = k <;> simp [h, Value.isNil]

theorem aliasLoop_set_nil (defaults : defaultMap) (hdr : Header) (k : Str) (outer : Value)
    (as : List Str) :
    aliasLoop defaults (hdr.set k .nil) outer as
      = aliasLoop defaults (hdr.delete k) outer as := by
  induction as with
  | nil => rfl
  | cons a as ih => simp only [aliasLoop, headerOrDefault_set_nil, ih]

/-- C8: a key mapped to `nil` (Absent) and a missing key are the same to `token.convert`:
for every token, header, key and configuration, the outcome on the header with `k` set to
`nil` is the outcome on the header with `k` deleted. -/
theorem convert_absent_eq_missing {Time : Type} (lib : GoLib Time)
    (defaults overrides : defaultMap) (als : Str → Option (List Str)) (t : token)
    (hdr : Header) (k : Str) :
    token.convert lib defaults overrides als t (hdr.set k .nil)
      = token.convert lib defaults overrides als t (hdr.delete k) := by
  simp only [token.convert, headerOrDefault_set_nil, aliasLoop_set_nil]

/-! ## Theorems: the render loop of `handleFile` -/

theorem renderLoop_acc {Time : Type} (lib : GoLib Time)
    (defaults overrides : defaultMap) (als : Str → Option (List Str)) (noSpace : Bool)
    (hdr : Header) (tokens : List token) (acc : Str) :
    renderLoop lib defaults overrides als noSpace hdr tokens acc
      = (renderLoop lib defaults overrides als noSpace hdr tokens []).map
          (fun r => acc ++ r) := by
  induction tokens generalizing acc with
  | nil => simp [renderLoop, Except.map]
  | cons t ts ih =>
    simp only [renderLoop, bind, Except.bind]
    cases t.convert lib defaults overrides als hdr with
    | error e => simp [Except.map]
    | ok item =>
      simp only [List.nil_append]
      rw [ih (acc ++ _), ih (ite _ _ _)]
      cases renderLoop lib defaults overrides als noSpace hdr ts [] <;>
        simp [Except.map]

theorem renderLoop_noSpace_eq {Time : Type} (lib : GoLib Time)
    (defaults overrides : defaultMap) (als : Str → Option (List Str)) (hdr : Header)
    (tokens : List token) (result : Str) :
    renderLoop lib defaults overrides als true hdr tokens result
      = (renderLoop lib defaults overrides als false hdr tokens []).map
          (fun r => result ++ stringsReplaceAllSpaceUnderscore r) := by
  induction tokens generalizing result with
  | nil => simp [renderLoop, Except.map, stringsReplaceAllSpaceUnderscore]
  | cons tok tokens ih =>
    simp only [renderLoop, bind, Except.bind]
    cases tok.convert lib defaults overrides als hdr with
    | error e => simp [Except.map]
    | ok item =>
      simp only [if_true, Bool.false_eq_true, if_false, List.nil_append]
      rw [ih, renderLoop_acc lib defaults overrides als false hdr tokens item]
      cases renderLoop lib defaults overrides als false hdr tokens [] <;>
        simp [Except.map, stringsReplaceAllSpaceUnderscore]

/-- C3 (counterexample): with `-no-space`, the format `my file {FILTER}` and
`FILTER = Text("L")`, the literal token is rendered with its spaces replaced, so the name
is `my_file_L` and not `my file L`. -/
theorem render_noSpace_literal_counterexample :
    scanForTokens "my file \x7bFILTER\x7d".toList
        = .ok [⟨true, "my file ".toList, []⟩, ⟨false, "FILTER".toList, []⟩] ∧
    renderLoop noLib emptyMap emptyMap aliases true
        (emptyHeader.set "FILTER".toList (.str "L".toList))
        [⟨true, "my file ".toList, []⟩, ⟨false, "FILTER".toList, []⟩] []
      = .ok "my_file_L".toList ∧
    renderLoop noLib emptyMap emptyMap aliases true
        (emptyHeader.set "FILTER".toList (.str "L".toList))
        [⟨true, "my file ".toList, []⟩, ⟨false, "FILTER".toList, []⟩] []
      ≠ .ok "my file L".toList := by
  refine ⟨by decide, by decide, by decide⟩

/-- C3 (amended): with `-no-space`, every token, literal or placeholder, contributes its
text with each space replaced by an underscore: a literal token adds its text with the
spaces replaced, and the rendered name is the name rendered without the option, with
every space replaced (and fails exactly where that one fails). -/
theorem render_noSpace_replaces_in_every_token {Time : Type} (lib : GoLib Time)
    (defaults overrides : defaultMap) (als : Str → Option (List Str)) (hdr : Header)
    (tokens : List token) (text format result : Str) :
    renderLoop lib defaults overrides als true hdr
        ({ raw := true, header := text, format := format } :: tokens) result
      = renderLoop lib defaults overrides als true hdr tokens
          (result ++ stringsReplaceAllSpaceUnderscore text) ∧
    renderLoop lib defaults overrides als true hdr tokens []
      = (renderLoop lib defaults overrides als false hdr tokens []).map
          stringsReplaceAllSpaceUnderscore := by
  constructor
  · simp [renderLoop, token.convert, bind, Except.bind]
  · rw [renderLoop_noSpace_eq]
    simp

/-! ## Lemmas: `strings.Index` for a one-character substring, and slices -/

theorem stringsIndex_cons (c x : Char) (xs : Str) :
    stringsIndex (x :: xs) [c]
      = if c = x then 0
        else if stringsIndex xs [c] < 0 then -1 else stringsIndex xs [c] + 1 := by
  simp [stringsIndex, List.isPrefixOf]

theorem stringsIndex_ge (c : Char) (s : Str) : -1 ≤ stringsIndex s [c] := by
  induction s with
  | nil => simp [stringsIndex]
  | cons x xs ih =>
    rw [stringsIndex_cons]
    split_ifs <;> omega

theorem stringsIndex_of_not_mem (c : Char) (s : Str) (h : c ∉ s) :
    stringsIndex s [c] = -1 := by
  induction s with
  | nil => simp [stringsIndex]
  | cons x xs ih =>
    rw [stringsIndex_cons]
    simp only [List.mem_cons, not_or] at h
    rw [if_neg h.1, ih h.2]
    simp

theorem stringsIndex_append_cons (c : Char) (p r : Str) (h : c ∉ p) :
    stringsIndex (p ++ c :: r) [c] = (p.length : Int) := by
  induction p with
  | nil => simp [stringsIndex_cons]
  | cons x xs ih =>
    simp only [List.mem_cons, not_or] at h
    rw [List.cons_append, stringsIndex_cons, if_neg h.1, ih h.2]
    have : ¬ ((xs.length : Int) < 0) := by omega
    rw [if_neg this]
    simp

theorem slice_of_eq (data pre mid post : Str) (lo hi : Int)
    (hd : data = pre ++ mid ++ post) (hlo : lo = (pre.length : Int))
    (hhi : hi = (pre.length : Int) + (mid.length : Int)) :
    slice data lo hi = .ok mid := by
  subst hd hlo hhi
  have h1 : ((pre.length : Int) + (mid.length : Int)).toNat = pre.length + mid.length := by
    omega
  have h2 : ((pre.length : Int)).toNat = pre.length := by omega
  unfold slice
  rw [if_pos (by simp), h1, h2]
  congr 1
  rw [List.append_assoc, List.take_append_eq_append_take]
  simp

theorem sliceFrom_of_eq (pre rest : Str) :
    sliceFrom (pre ++ rest) (pre.length : Int) = .ok rest := by
  unfold sliceFrom
  exact slice_of_eq _ pre rest [] _ _ (by simp) rfl (by simp)

theorem exists_first_occurrence (c : Char) (s : Str) (h : c ∈ s) :
    ∃ p r, s = p ++ c :: r ∧ c ∉ p := by
  induction s with
  | nil => simp at h
  | cons x xs ih =>
    by_cases hx : c = x
    · exact ⟨[], xs, by simp [hx], by simp⟩
    · have hm : c ∈ xs := by
        rcases List.mem_cons.1 h with h | h
        · exact absurd h hx
        · exact h
      obtain ⟨p, r, hs, hp⟩ := ih hm
      exact ⟨x :: p, r, by simp [hs], by simp [hx, hp]⟩

/-! ## Lemmas: one iteration of the loop of `scanForTokens` -/

theorem scanLoop_placeholder_format (pre k f r : Str) (fuel : Nat) (toks : List token)
    (hk1 : ':' ∉ k) (hk2 : '}' ∉ k) (hf : '}' ∉ f) :
    scanLoop (pre ++ ('{' :: k ++ ':' :: f ++ '}' :: r)) (fuel + 1) (pre.length : Int) toks
      = scanLoop (pre ++ ('{' :: k ++ ':' :: f ++ '}' :: r)) fuel
          ((pre ++ ('{' :: k ++ ':' :: f ++ ['}'])).length : Int)
          (toks ++ [{ raw := false, header := k, format := f }]) := by
  have hrest := sliceFrom_of_eq pre ('{' :: k ++ ':' :: f ++ '}' :: r)
  have hs : stringsIndex ('{' :: k ++ ':' :: f ++ '}' :: r) ['{'] = 0 := by
    simp [stringsIndex_cons]
  have he : stringsIndex ('{' :: k ++ ':' :: f ++ '}' :: r) ['}']
      = ((k.length + f.length + 2 : Nat) : Int) := by
    rw [stringsIndex_append_cons '}' ('{' :: k ++ ':' :: f) r (by simp [hk2, hf])]
    simp; omega
  have hbody : slice (pre ++ ('{' :: k ++ ':' :: f ++ '}' :: r)) ((pre.length : Int) + 0)
      ((pre.length : Int) + ((k.length + f.length + 2 : Nat) : Int))
      = .ok ('{' :: k ++ ':' :: f) :=
    slice_of_eq _ pre ('{' :: k ++ ':' :: f) ('}' :: r) _ _ (by simp) (by simp)
      (by simp; omega)
  have hfi : stringsIndex ('{' :: k ++ ':' :: f) [':'] = ((k.length + 1 : Nat) : Int) := by
    rw [stringsIndex_append_cons ':' ('{' :: k) f (by simp [hk1])]
    simp
  have hheader : slice (pre ++ ('{' :: k ++ ':' :: f ++ '}' :: r))
      ((pre.length : Int) + 0 + 1) ((pre.length : Int) + ((k.length + 1 : Nat) : Int))
      = .ok k :=
    slice_of_eq _ (pre ++ ['{']) k (':' :: f ++ '}' :: r) _ _ (by simp) (by simp)
      (by simp; omega)
  have hformat : slice (pre ++ ('{' :: k ++ ':' :: f ++ '}' :: r))
      ((pre.length : Int) + ((k.length + 1 : Nat) : Int) + 1)
      ((pre.length : Int) + ((k.length + f.length + 2 : Nat) : Int))
      = .ok f :=
    slice_of_eq _ (pre ++ '{' :: k ++ [':']) f ('}' :: r) _ _ (by simp) (by simp; omega)
      (by simp; omega)
  have hlt : (pre.length : Int)
      < ((pre ++ ('{' :: k ++ ':' :: f ++ '}' :: r)).length : Int) := by
    simp; omega
  have hpos : ((k.length + f.length + 2 : Nat) : Int) > 0 := by omega
  have hpos2 : ((k.length + 1 : Nat) : Int) > 0 := by omega
  have hnext : (pre.length : Int) + ((k.length + f.length + 2 : Nat) : Int) + 1
      = ((pre ++ ('{' :: k ++ ':' :: f ++ ['}'])).length : Int) := by
    simp; omega
  rw [scanLoop]
  simp only [hlt, not_true_eq_false, if_false, hrest, bind, Except.bind, hs, he, hbody, hfi,
    hheader, hformat, hpos, hpos2, and_self, if_true, hnext]

theorem scanLoop_placeholder_plain (pre k r : Str) (fuel : Nat) (toks : List token)
    (hk1 : ':' ∉ k) (hk2 : '}' ∉ k) :
    scanLoop (pre ++ ('{' :: k ++ '}' :: r)) (fuel + 1) (pre.length : Int) toks
      = scanLoop (pre ++ ('{' :: k ++ '}' :: r)) fuel
          ((pre ++ ('{' :: k ++ ['}'])).length : Int)
          (toks ++ [{ raw := false, header := k, format := [] }]) := by
  have hrest := sliceFrom_of_eq pre ('{' :: k ++ '}' :: r)
  have hs : stringsIndex ('{' :: k ++ '}' :: r) ['{'] = 0 := by
    simp [stringsIndex_cons]
  have he : stringsIndex ('{' :: k ++ '}' :: r) ['}'] = ((k.length + 1 : Nat) : Int) := by
    rw [stringsIndex_append_cons '}' ('{' :: k) r (by simp [hk2])]
    simp
  have hbody : slice (pre ++ ('{' :: k ++ '}' :: r)) ((pre.length : Int) + 0)
      ((pre.length : Int) + ((k.length + 1 : Nat) : Int)) = .ok ('{' :: k) :=
    slice_of_eq _ pre ('{' :: k) ('}' :: r) _ _ (by simp) (by simp) (by simp)
  have hfi : stringsIndex ('{' :: k) [':'] = -1 :=
    stringsIndex_of_not_mem ':' ('{' :: k) (by simp [hk1])
  have hheader : slice (pre ++ ('{' :: k ++ '}' :: r))
      ((pre.length : Int) + 0 + 1) ((pre.length : Int) + ((k.length + 1 : Nat) : Int))
      = .ok k :=
    slice_of_eq _ (pre ++ ['{']) k ('}' :: r) _ _ (by simp) (by simp) (by simp; omega)
  have hlt : (pre.length : Int) < ((pre ++ ('{' :: k ++ '}' :: r)).length : Int) := by
    simp; omega
  have hpos : ((k.length + 1 : Nat) : Int) > 0 := by omega
  have hneg : ¬ ((-1 : Int) > 0) := by omega
  have hnext : (pre.length : Int) + ((k.length + 1 : Nat) : Int) + 1
      = ((pre ++ ('{' :: k ++ ['}'])).length : Int) := by
    simp; omega
  rw [scanLoop]
  simp only [hlt, not_true_eq_false, if_false, hrest, bind, Except.bind, hs, he, hbody, hfi,
    hheader, hpos, hneg, and_self, if_true, hnext]

theorem scanLoop_literal (pre l r : Str) (fuel : Nat) (toks : List token)
    (hl : l ≠ []) (hl1 : '{' ∉ l) :
    scanLoop (pre ++ (l ++ '{' :: r)) (fuel + 1) (pre.length : Int) toks
      = scanLoop (pre ++ (l ++ '{' :: r)) fuel ((pre ++ l).length : Int)
          (toks ++ [{ raw := true, header := l, format := [] }]) := by
  have hrest := sliceFrom_of_eq pre (l ++ '{' :: r)
  have hs : stringsIndex (l ++ '{' :: r) ['{'] = (l.length : Int) :=
    stringsIndex_append_cons '{' l r hl1
  have hlpos : 0 < l.length := List.length_pos.2 hl
  have hheader : slice (pre ++ (l ++ '{' :: r)) (pre.length : Int)
      ((pre.length : Int) + (l.length : Int)) = .ok l :=
    slice_of_eq _ pre l ('{' :: r) _ _ (by simp) rfl rfl
  have hlt : (pre.length : Int) < ((pre ++ (l ++ '{' :: r)).length : Int) := by
    simp; omega
  have hne : ¬ ((l.length : Int) = 0) := by omega
  have hpos : (l.length : Int) > 0 := by omega
  have hnext : (pre.length : Int) + (l.length : Int) - 1 + 1 = ((pre ++ l).length : Int) := by
    simp
  rw [scanLoop]
  simp only [hlt, not_true_eq_false, if_false, hrest, bind, Except.bind, hs, hheader, hne,
    hpos, false_and, if_true, hnext]

theorem scanLoop_no_open (pre rest : Str) (fuel : Nat) (toks : List token)
    (hne : rest ≠ []) (h : '{' ∉ rest) :
    scanLoop (pre ++ rest) (fuel + 1) (pre.length : Int) toks
      = .ok (toks ++ [{ raw := true, header := rest, format := [] }]) := by
  have hrest := sliceFrom_of_eq pre rest
  have hs : stringsIndex rest ['{'] = -1 := stringsIndex_of_not_mem '{' rest h
  have hlpos : 0 < rest.length := List.length_pos.2 hne
  have hlt : (pre.length : Int) < ((pre ++ rest).length : Int) := by
    simp; omega
  have hne : ¬ ((-1 : Int) = 0) := by omega
  have hpos : ¬ ((-1 : Int) > 0) := by omega
  rw [scanLoop]
  simp only [hlt, not_true_eq_false, if_false, hrest, bind, Except.bind, hs, hne,
    hpos, false_and]

theorem scanLoop_no_close (pre r : Str) (fuel : Nat) (toks : List token)
    (h : '}' ∉ r) :
    scanLoop (pre ++ '{' :: r) (fuel + 1) (pre.length : Int) toks
      = .ok (toks ++ [{ raw := true, header := '{' :: r, format := [] }]) := by
  have hrest := sliceFrom_of_eq pre ('{' :: r)
  have hs : stringsIndex ('{' :: r) ['{'] = 0 := by simp [stringsIndex_cons]
  have he : stringsIndex ('{' :: r) ['}'] = -1 :=
    stringsIndex_of_not_mem '}' ('{' :: r) (by simp [h])
  have hlt : (pre.length : Int) < ((pre ++ '{' :: r).length : Int) := by
    simp
  have hpos : ¬ ((-1 : Int) > 0) := by omega
  have hpos0 : ¬ ((0 : Int) > 0) := by omega
  rw [scanLoop]
  simp only [hlt, not_true_eq_false, if_false, hrest, bind, Except.bind, hs, he,
    hpos, hpos0, and_false]

theorem scanLoop_end (data : Str) (fuel : Nat) (toks : List token) :
    scanLoop data (fuel + 1) (data.length : Int) toks = .ok toks := by
  rw [scanLoop]
  simp

/-- Every string has one of the five shapes the loop of `scanForTokens` tells
apart. -/
theorem scan_shapes (s : Str) :
    '{' ∉ s ∨
    (∃ l r, s = l ++ '{' :: r ∧ l ≠ [] ∧ '{' ∉ l) ∨
    (∃ r, s = '{' :: r ∧ '}' ∉ r) ∨
    (∃ k r, s = '{' :: k ++ '}' :: r ∧ ':' ∉ k ∧ '}' ∉ k) ∨
    (∃ k f r, s = '{' :: k ++ ':' :: f ++ '}' :: r ∧ ':' ∉ k ∧ '}' ∉ k ∧ '}' ∉ f) := by
  by_cases h1 : '{' ∈ s
  · right
    obtain ⟨l, r, hsl, hl⟩ := exists_first_occurrence '{' s h1
    by_cases hl0 : l = []
    · right
      subst hl0
      simp only [List.nil_append] at hsl
      by_cases h2 : '}' ∈ r
      · right
        obtain ⟨b, r2, hr, hb⟩ := exists_first_occurrence '}' r h2
        by_cases h3 : ':' ∈ b
        · right
          obtain ⟨k, f, hbk, hk⟩ := exists_first_occurrence ':' b h3
          refine ⟨k, f, r2, ?_, hk, ?_, ?_⟩
          · rw [hsl, hr, hbk]; simp
          · intro hm; exact hb (by rw [hbk]; simp [hm])
          · intro hm; exact hb (by rw [hbk]; simp [hm])
        · left
          exact ⟨b, r2, by rw [hsl, hr]; simp, h3, hb⟩
      · left
        exact ⟨r, hsl, h2⟩
    · left
      exact ⟨l, r, hsl, hl0, hl⟩
  · left
    exact h1

/-! ## Lemmas: the loop from any index is the tokenizer on the rest of the string -/

theorem scanLoop_suffix_aux (n : Nat) :
    ∀ rest : Str, rest.length = n →
      ∃ ts : List token, ∀ (pre : Str) (fuel : Nat) (toks : List token),
        rest.length < fuel →
        scanLoop (pre ++ rest) fuel (pre.length : Int) toks = .ok (toks ++ ts) := by
  induction n using Nat.strong_induction_on with
  | _ n ih =>
    intro rest hn
    rcases scan_shapes rest with h | ⟨l, r, hs, hl, hl1⟩ | ⟨r, hs, hr⟩ |
        ⟨k, r, hs, hk1, hk2⟩ | ⟨k, f, r, hs, hk1, hk2, hf⟩
    · by_cases hnil : rest = []
      · refine ⟨[], ?_⟩
        intro pre fuel toks hfuel
        obtain ⟨fuel, rfl⟩ : ∃ m, fuel = m + 1 := ⟨fuel - 1, by omega⟩
        subst hnil
        simpa using scanLoop_end pre fuel toks
      · refine ⟨[{ raw := true, header := rest, format := [] }], ?_⟩
        intro pre fuel toks hfuel
        obtain ⟨fuel, rfl⟩ : ∃ m, fuel = m + 1 := ⟨fuel - 1, by omega⟩
        exact scanLoop_no_open pre rest fuel toks hnil h
    · subst hs
      have hlpos : 0 < l.length := List.length_pos.2 hl
      obtain ⟨ts, hts⟩ := ih ('{' :: r).length (by rw [← hn]; simp; omega) ('{' :: r) rfl
      refine ⟨{ raw := true, header := l, format := [] } :: ts, ?_⟩
      intro pre fuel toks hfuel
      obtain ⟨fuel, rfl⟩ : ∃ m, fuel = m + 1 := ⟨fuel - 1, by omega⟩
      rw [scanLoop_literal pre l r fuel toks hl hl1]
      have := hts (pre ++ l) fuel (toks ++ [{ raw := true, header := l, format := [] }])
        (by simp at hfuel ⊢; omega)
      simpa [List.append_assoc] using this
    · subst hs
      refine ⟨[{ raw := true, header := '{' :: r, format := [] }], ?_⟩
      intro pre fuel toks hfuel
      obtain ⟨fuel, rfl⟩ : ∃ m, fuel = m + 1 := ⟨fuel - 1, by omega⟩
      exact scanLoop_no_close pre r fuel toks hr
    · subst hs
      obtain ⟨ts, hts⟩ := ih r.length (by rw [← hn]; simp; omega) r rfl
      refine ⟨{ raw := false, header := k, format := [] } :: ts, ?_⟩
      intro pre fuel toks hfuel
      obtain ⟨fuel, rfl⟩ : ∃ m, fuel = m + 1 := ⟨fuel - 1, by omega⟩
      rw [scanLoop_placeholder_plain pre k r fuel toks hk1 hk2]
      have := hts (pre ++ ('{' :: k ++ ['}'])) fuel
        (toks ++ [{ raw := false, header := k, format := [] }])
        (by simp at hfuel ⊢; omega)
      simpa [List.append_assoc] using this
    · subst hs
      obtain ⟨ts, hts⟩ := ih r.length (by rw [← hn]; simp; omega) r rfl
      refine ⟨{ raw := false, header := k, format := f } :: ts, ?_⟩
      intro pre fuel toks hfuel
      obtain ⟨fuel, rfl⟩ : ∃ m, fuel = m + 1 := ⟨fuel - 1, by omega⟩
      rw [scanLoop_placeholder_format pre k f r fuel toks hk1 hk2 hf]
      have := hts (pre ++ ('{' :: k ++ ':' :: f ++ ['}'])) fuel
        (toks ++ [{ raw := false, header := k, format := f }])
        (by simp at hfuel ⊢; omega)
      simpa [List.append_assoc] using this

/-- The tokenizer never fails, and the loop of `scanForTokens` started at the end of any
prefix, with enough fuel for the rest, appends the tokens of the rest. -/
theorem scanLoop_suffix (rest : Str) :
    ∃ ts : List token, scanForTokens rest = .ok ts ∧
      ∀ (pre : Str) (fuel : Nat) (toks : List token), rest.length < fuel →
        scanLoop (pre ++ rest) fuel (pre.length : Int) toks = .ok (toks ++ ts) := by
  obtain ⟨ts, hts⟩ := scanLoop_suffix_aux rest.length rest rfl
  refine ⟨ts, ?_, hts⟩
  have := hts [] (rest.length + 1) [] (by omega)
  simpa [scanForTokens] using this

/-! ## Lemmas: the equations of `scanForTokens` -/

theorem scanForTokens_nil : scanForTokens [] = .ok [] := by
  simp [scanForTokens, scanLoop]

theorem scanForTokens_no_open (s : Str) (hne : s ≠ []) (h : '{' ∉ s) :
    scanForTokens s = .ok [{ raw := true, header := s, format := [] }] := by
  have := scanLoop_no_open [] s s.length [] hne h
  simpa [scanForTokens] using this

theorem scanForTokens_no_close (r : Str) (h : '}' ∉ r) :
    scanForTokens ('{' :: r) = .ok [{ raw := true, header := '{' :: r, format := [] }] := by
  have := scanLoop_no_close [] r ('{' :: r).length [] h
  simpa [scanForTokens] using this

theorem scanForTokens_literal (l r : Str) (hl : l ≠ []) (hl1 : '{' ∉ l) :
    ∃ ts, scanForTokens ('{' :: r) = .ok ts ∧
      scanForTokens (l ++ '{' :: r)
        = .ok ({ raw := true, header := l, format := [] } :: ts) := by
  obtain ⟨ts, h1, h2⟩ := scanLoop_suffix ('{' :: r)
  refine ⟨ts, h1, ?_⟩
  have hstep := scanLoop_literal [] l r (l ++ '{' :: r).length [] hl hl1
  have hlpos : 0 < l.length := List.length_pos.2 hl
  have hrest := h2 l (l ++ '{' :: r).length [{ raw := true, header := l, format := [] }]
    (by simp; omega)
  simp only [List.nil_append, List.length_nil, Nat.cast_zero] at hstep
  rw [scanForTokens, hstep, hrest]
  simp

theorem scanForTokens_placeholder_plain (k r : Str) (hk1 : ':' ∉ k) (hk2 : '}' ∉ k) :
    ∃ ts, scanForTokens r = .ok ts ∧
      scanForTokens ('{' :: k ++ '}' :: r)
        = .ok ({ raw := false, header := k, format := [] } :: ts) := by
  obtain ⟨ts, h1, h2⟩ := scanLoop_suffix r
  refine ⟨ts, h1, ?_⟩
  have hstep := scanLoop_placeholder_plain [] k r ('{' :: k ++ '}' :: r).length [] hk1 hk2
  have hrest := h2 ('{' :: k ++ ['}']) ('{' :: k ++ '}' :: r).length
    [{ raw := false, header := k, format := [] }] (by simp; omega)
  simp only [List.nil_append, List.length_nil, Nat.cast_zero] at hstep
  rw [scanForTokens, hstep]
  simpa [List.append_assoc] using hrest

theorem scanForTokens_placeholder_format (k f r : Str) (hk1 : ':' ∉ k) (hk2 : '}' ∉ k)
    (hf : '}' ∉ f) :
    ∃ ts, scanForTokens r = .ok ts ∧
      scanForTokens ('{' :: k ++ ':' :: f ++ '}' :: r)
        = .ok ({ raw := false, header := k, format := f } :: ts) := by
  obtain ⟨ts, h1, h2⟩ := scanLoop_suffix r
  refine ⟨ts, h1, ?_⟩
  have hstep := scanLoop_placeholder_format [] k f r
    ('{' :: k ++ ':' :: f ++ '}' :: r).length [] hk1 hk2 hf
  have hrest := h2 ('{' :: k ++ ':' :: f ++ ['}']) ('{' :: k ++ ':' :: f ++ '}' :: r).length
    [{ raw := false, header := k, format := f }] (by simp; omega)
  simp only [List.nil_append, List.length_nil, Nat.cast_zero] at hstep
  rw [scanForTokens, hstep]
  simpa [List.append_assoc] using hrest

/-! ## Theorems: `scanForTokens` -/

/-- C6: for a keyword `k` without `:` and `}`, a format `f` without `}` and any rest `r`,
`scanForTokens` of `{k:f}r` is `Placeholder(k, f)` followed by the tokens of `r`, and
`scanForTokens` of `{k}r` is `Placeholder(k)` with empty format followed by the tokens of
`r`. The body is split at its first `:` only: `f` may contain further colons. -/
theorem scanForTokens_placeholder_split (k f r : Str) (hk1 : ':' ∉ k) (hk2 : '}' ∉ k)
    (hf : '}' ∉ f) :
    ∃ ts, scanForTokens r = .ok ts ∧
      scanForTokens ('{' :: k ++ ':' :: f ++ '}' :: r)
        = .ok ({ raw := false, header := k, format := f } :: ts) ∧
      scanForTokens ('{' :: k ++ '}' :: r)
        = .ok ({ raw := false, header := k, format := [] } :: ts) := by
  obtain ⟨ts, h1, h2⟩ := scanForTokens_placeholder_format k f r hk1 hk2 hf
  obtain ⟨ts', h1', h2'⟩ := scanForTokens_placeholder_plain k r hk1 hk2
  have : ts' = ts := by
    rw [h1] at h1'
    exact (Except.ok.inj h1').symm
  subst this
  exact ⟨ts', h1, h2, h2'⟩

/-- C6 (witness): keyword `EXPTIME`, format `%0.2f:x` (with a later colon) and rest
`.fits`; and the example of the spec, `{FILTER}_{EXPTIME:%0.2f}.fits`, evaluated. -/
theorem scanForTokens_placeholder_split_witness :
    (∃ ts, scanForTokens ".fits".toList = .ok ts ∧
      scanForTokens ('{' :: "EXPTIME".toList ++ ':' :: "%0.2f:x".toList ++ '}' :: ".fits".toList)
        = .ok ({ raw := false, header := "EXPTIME".toList, format := "%0.2f:x".toList } :: ts) ∧
      scanForTokens ('{' :: "EXPTIME".toList ++ '}' :: ".fits".toList)
        = .ok ({ raw := false, header := "EXPTIME".toList, format := [] } :: ts)) ∧
    scanForTokens "\x7bFILTER\x7d_\x7bEXPTIME:%0.2f\x7d.fits".toList =
      .ok [⟨false, "FILTER".toList, []⟩, ⟨true, "_".toList, []⟩,
           ⟨false, "EXPTIME".toList, "%0.2f".toList⟩, ⟨true, ".fits".toList, []⟩] :=
  ⟨scanForTokens_placeholder_split "EXPTIME".toList "%0.2f:x".toList ".fits".toList
    (by decide) (by decide) (by decide), by decide⟩

/-- C5 (counterexample): the format string `{A:}` tokenizes to the single placeholder
`A` with empty format, which is written back as `{A}`: the colon is lost. -/
theorem writeBack_scanForTokens_counterexample :
    scanForTokens "\x7bA:\x7d".toList = .ok [⟨false, "A".toList, []⟩] ∧
    writeBack [⟨false, "A".toList, []⟩] = "\x7bA\x7d".toList ∧
    writeBack [⟨false, "A".toList, []⟩] ≠ "\x7bA:\x7d".toList := by
  refine ⟨by decide, by decide, by decide⟩

theorem colonBeforeClose_no_close (st : BodyState) (s : Str) (h : '}' ∉ s) :
    colonBeforeClose st s = false := by
  induction s generalizing st with
  | nil => cases st <;> rfl
  | cons c cs ih =>
    simp only [List.mem_cons, not_or] at h
    have hc : ¬ c = '}' := fun e => h.1 e.symm
    cases st <;> simp only [colonBeforeClose, hc, if_false] <;>
      first | exact ih _ h.2 | (split_ifs <;> exact ih _ h.2)

theorem colonBeforeClose_outside_append (l s : Str) (h : '{' ∉ l) :
    colonBeforeClose .outside (l ++ s) = colonBeforeClose .outside s := by
  induction l with
  | nil => rfl
  | cons c cs ih =>
    simp only [List.mem_cons, not_or] at h
    have hc : ¬ c = '{' := fun e => h.1 e.symm
    simp only [List.cons_append, colonBeforeClose, hc, if_false]
    exact ih h.2

theorem colonBeforeClose_noColon_append (k s : Str) (h1 : ':' ∉ k) (h2 : '}' ∉ k) :
    colonBeforeClose .noColon (k ++ s) = colonBeforeClose .noColon s := by
  induction k with
  | nil => rfl
  | cons c cs ih =>
    simp only [List.mem_cons, not_or] at h1 h2
    have hc1 : ¬ c = ':' := fun e => h1.1 e.symm
    have hc2 : ¬ c = '}' := fun e => h2.1 e.symm
    simp only [List.cons_append, colonBeforeClose, hc1, hc2, if_false]
    exact ih h1.2 h2.2

theorem colonBeforeClose_colonEarlier_append (f r : Str) (h : '}' ∉ f) :
    colonBeforeClose .colonEarlier (f ++ '}' :: r) = colonBeforeClose .outside r := by
  induction f with
  | nil => simp [colonBeforeClose]
  | cons c cs ih =>
    simp only [List.mem_cons, not_or] at h
    have hc : ¬ c = '}' := fun e => h.1 e.symm
    simp only [List.cons_append, colonBeforeClose, hc, if_false]
    exact ih h.2

theorem hasEmptyFormatAfterColon_no_open (s : Str) (h : '{' ∉ s) :
    hasEmptyFormatAfterColon s = false := by
  have := colonBeforeClose_outside_append s [] h
  simpa [hasEmptyFormatAfterColon, colonBeforeClose] using this

theorem hasEmptyFormatAfterColon_literal (l r : Str) (h : '{' ∉ l) :
    hasEmptyFormatAfterColon (l ++ '{' :: r) = hasEmptyFormatAfterColon ('{' :: r) :=
  colonBeforeClose_outside_append l _ h

theorem hasEmptyFormatAfterColon_no_close (r : Str) (h : '}' ∉ r) :
    hasEmptyFormatAfterColon ('{' :: r) = false := by
  simp only [hasEmptyFormatAfterColon, colonBeforeClose, if_true]
  exact colonBeforeClose_no_close _ r h

theorem hasEmptyFormatAfterColon_plain (k r : Str) (h1 : ':' ∉ k) (h2 : '}' ∉ k) :
    hasEmptyFormatAfterColon ('{' :: k ++ '}' :: r) = hasEmptyFormatAfterColon r := by
  have e : '{' :: k ++ '}' :: r = '{' :: (k ++ '}' :: r) := by simp
  rw [hasEmptyFormatAfterColon, e]
  simp only [colonBeforeClose, if_true]
  rw [colonBeforeClose_noColon_append k _ h1 h2]
  simp [colonBeforeClose, hasEmptyFormatAfterColon]

theorem hasEmptyFormatAfterColon_format (k f r : Str) (h1 : ':' ∉ k) (h2 : '}' ∉ k)
    (hf : '}' ∉ f) :
    hasEmptyFormatAfterColon ('{' :: k ++ ':' :: f ++ '}' :: r)
      = if f = [] then true else hasEmptyFormatAfterColon r := by
  have e : '{' :: k ++ ':' :: f ++ '}' :: r = '{' :: (k ++ ':' :: (f ++ '}' :: r)) := by simp
  rw [hasEmptyFormatAfterColon, e]
  simp only [colonBeforeClose, if_true]
  rw [colonBeforeClose_noColon_append k _ h1 h2]
  have hcolon : ¬ (':' : Char) = '}' := by decide
  cases f with
  | nil => simp [colonBeforeClose]
  | cons c cs =>
    simp only [List.mem_cons, not_or] at hf
    have hc : ¬ c = '}' := fun e => hf.1 e.symm
    simp only [List.cons_append, colonBeforeClose, hc, hcolon, if_false, if_true,
      reduceCtorEq, hasEmptyFormatAfterColon]
    exact colonBeforeClose_colonEarlier_append cs r hf.2

theorem writeBack_scanForTokens_aux (n : Nat) :
    ∀ s : Str, s.length = n →
      ∃ ts, scanForTokens s = .ok ts ∧
        (writeBack ts = s ↔ hasEmptyFormatAfterColon s = false) := by
  induction n using Nat.strong_induction_on with
  | _ n ih =>
    intro s hn
    rcases scan_shapes s with h | ⟨l, r, hs, hl, hl1⟩ | ⟨r, hs, hr⟩ |
        ⟨k, r, hs, hk1, hk2⟩ | ⟨k, f, r, hs, hk1, hk2, hf⟩
    · by_cases hnil : s = []
      · subst hnil
        exact ⟨[], scanForTokens_nil, by simp [writeBack, hasEmptyFormatAfterColon,
          colonBeforeClose]⟩
      · exact ⟨_, scanForTokens_no_open s hnil h,
          by simp [writeBack, token.writeBack, hasEmptyFormatAfterColon_no_open s h]⟩
    · subst hs
      have hlpos : 0 < l.length := List.length_pos.2 hl
      obtain ⟨ts, h1, h2⟩ := scanForTokens_literal l r hl hl1
      obtain ⟨ts', h1', hw⟩ := ih ('{' :: r).length (by rw [← hn]; simp; omega) ('{' :: r)
        rfl
      have : ts' = ts := by
        rw [h1] at h1'
        exact (Except.ok.inj h1').symm
      subst this
      refine ⟨_, h2, ?_⟩
      rw [hasEmptyFormatAfterColon_literal l r hl1, ← hw]
      simp [writeBack, token.writeBack]
    · subst hs
      exact ⟨_, scanForTokens_no_close r hr,
        by simp [writeBack, token.writeBack, hasEmptyFormatAfterColon_no_close r hr]⟩
    · subst hs
      obtain ⟨ts, h1, h2⟩ := scanForTokens_placeholder_plain k r hk1 hk2
      obtain ⟨ts', h1', hw⟩ := ih r.length (by rw [← hn]; simp; omega) r rfl
      have : ts' = ts := by
        rw [h1] at h1'
        exact (Except.ok.inj h1').symm
      subst this
      refine ⟨_, h2, ?_⟩
      rw [hasEmptyFormatAfterColon_plain k r hk1 hk2, ← hw]
      simp [writeBack, token.writeBack]
    · subst hs
      obtain ⟨ts, h1, h2⟩ := scanForTokens_placeholder_format k f r hk1 hk2 hf
      obtain ⟨ts', h1', hw⟩ := ih r.length (by rw [← hn]; simp; omega) r rfl
      have : ts' = ts := by
        rw [h1] at h1'
        exact (Except.ok.inj h1').symm
      subst this
      refine ⟨_, h2, ?_⟩
      rw [hasEmptyFormatAfterColon_format k f r hk1 hk2 hf]
      by_cases hfe : f = []
      · subst hfe
        simp [writeBack, token.writeBack]
      · rw [if_neg hfe, ← hw]
        simp [writeBack, token.writeBack, hfe]

/-- C5 (amended): for every format string `scanForTokens` succeeds, and writing its
tokens back in sequence order reconstructs the string exactly if and only if no
placeholder of the string has its first `:` directly before its closing `}` (a colon
followed by an empty format, as in `{A:}`). In particular the round trip holds for every
string without such a placeholder, also when `:}` occurs elsewhere in it. -/
theorem writeBack_scanForTokens (s : Str) :
    ∃ ts, scanForTokens s = .ok ts ∧
      (writeBack ts = s ↔ hasEmptyFormatAfterColon s = false) :=
  writeBack_scanForTokens_aux s.length s rfl

/-- C5 (witness): the example of the spec `{FILTER}_{EXPTIME:%0.2f}.fits`, and the
strings `a:}`, `{A:b:}`, `{A}:}` and `{X:{A:}`, which contain `:}`, have no placeholder
with an empty format after its colon; `{A:}` and `{X{A:}` have one. -/
theorem writeBack_scanForTokens_witness :
    (∃ ts, scanForTokens "\x7bFILTER\x7d_\x7bEXPTIME:%0.2f\x7d.fits".toList = .ok ts ∧
      (writeBack ts = "\x7bFILTER\x7d_\x7bEXPTIME:%0.2f\x7d.fits".toList
        ↔ hasEmptyFormatAfterColon "\x7bFILTER\x7d_\x7bEXPTIME:%0.2f\x7d.fits".toList
            = false)) ∧
    hasEmptyFormatAfterColon "\x7bFILTER\x7d_\x7bEXPTIME:%0.2f\x7d.fits".toList = false ∧
    hasEmptyFormatAfterColon "a:\x7d".toList = false ∧
    hasEmptyFormatAfterColon "\x7bA:b:\x7d".toList = false ∧
    hasEmptyFormatAfterColon "\x7bA\x7d:\x7d".toList = false ∧
    hasEmptyFormatAfterColon "\x7bX:\x7bA:\x7d".toList = false ∧
    hasEmptyFormatAfterColon "\x7bA:\x7d".toList = true ∧
    hasEmptyFormatAfterColon "\x7bX\x7bA:\x7d".toList = true :=
  ⟨writeBack_scanForTokens _, by decide, by decide, by decide, by decide, by decide,
   by decide, by decide⟩

/-! ## Lemmas: what the regular expressions match -/

theorem Regexp.matchString_empty (x : Str) : Regexp.empty.MatchString x = false := by
  induction x with
  | nil => rfl
  | cons a x ih => simpa [Regexp.MatchString, Regexp.deriv] using ih

theorem Regexp.matchString_epsilon (x : Str) :
    Regexp.epsilon.MatchString x = true ↔ x = [] := by
  cases x with
  | nil => simp [Regexp.MatchString, Regexp.matchEpsilon]
  | cons a x => simp [Regexp.MatchString, Regexp.deriv, Regexp.matchString_empty]

theorem Regexp.matchString_cls (p : Char → Bool) (x : Str) :
    (Regexp.cls p).MatchString x = true ↔ ∃ c, x = [c] ∧ p c = true := by
  cases x with
  | nil => simp [Regexp.MatchString, Regexp.matchEpsilon]
  | cons a x =>
    by_cases hp : p a = true
    · simp only [Regexp.MatchString, Regexp.deriv, hp, if_true, Regexp.matchString_epsilon]
      constructor
      · rintro rfl
        exact ⟨a, rfl, hp⟩
      · rintro ⟨c, hc, _⟩
        simp only [List.cons.injEq] at hc
        exact hc.2
    · simp only [Regexp.MatchString, Regexp.deriv, hp, Regexp.matchString_empty]
      simp only [Bool.false_eq_true, if_false, Regexp.matchString_empty, false_iff]
      rintro ⟨c, hc, hpc⟩
      simp only [List.cons.injEq] at hc
      exact hp (hc.1 ▸ hpc)

theorem Regexp.matchString_alt (r s : Regexp) (x : Str) :
    (Regexp.alt r s).MatchString x = true
      ↔ r.MatchString x = true ∨ s.MatchString x = true := by
  induction x generalizing r s with
  | nil => simp [Regexp.MatchString, Regexp.matchEpsilon]
  | cons a x ih => simpa [Regexp.MatchString, Regexp.deriv] using ih _ _

theorem Regexp.matchString_cat (r s : Regexp) (x : Str) :
    (Regexp.cat r s).MatchString x = true
      ↔ ∃ t u, x = t ++ u ∧ r.MatchString t = true ∧ s.MatchString u = true := by
  induction x generalizing r s with
  | nil =>
    simp only [Regexp.MatchString, Regexp.matchEpsilon, Bool.and_eq_true]
    constructor
    · intro h
      exact ⟨[], [], rfl, h.1, h.2⟩
    · rintro ⟨t, u, htu, ht, hu⟩
      obtain ⟨rfl, rfl⟩ := List.append_eq_nil.1 htu.symm
      exact ⟨ht, hu⟩
  | cons a x ih =>
    have key : (Regexp.cat (r.deriv a) s).MatchString x = true
        ↔ ∃ t u, a :: x = (a :: t) ++ u ∧ r.MatchString (a :: t) = true
            ∧ s.MatchString u = true := by
      rw [ih]
      simp [Regexp.MatchString]
    by_cases hr : r.matchEpsilon = true
    · simp only [Regexp.MatchString, Regexp.deriv, hr, if_true, Regexp.matchString_alt]
      rw [key]
      constructor
      · rintro (⟨t, u, h1, h2, h3⟩ | h)
        · exact ⟨a :: t, u, h1, h2, h3⟩
        · exact ⟨[], a :: x, rfl, hr, h⟩
      · rintro ⟨t, u, h1, h2, h3⟩
        cases t with
        | nil =>
          right
          simp only [List.nil_append] at h1
          subst h1
          exact h3
        | cons b t =>
          left
          simp only [List.cons_append, List.cons.injEq] at h1
          obtain ⟨rfl, rfl⟩ := h1
          exact ⟨t, u, rfl, h2, h3⟩
    · simp only [Regexp.MatchString, Regexp.deriv, hr, Bool.false_eq_true, if_false]
      rw [key]
      constructor
      · rintro ⟨t, u, h1, h2, h3⟩
        exact ⟨a :: t, u, h1, h2, h3⟩
      · rintro ⟨t, u, h1, h2, h3⟩
        cases t with
        | nil => exact absurd h2 hr
        | cons b t =>
          simp only [List.cons_append, List.cons.injEq] at h1
          obtain ⟨rfl, rfl⟩ := h1
          exact ⟨t, u, rfl, h2, h3⟩

theorem Regexp.matchString_star_cls (p : Char → Bool) (x : Str) :
    (Regexp.star (Regexp.cls p)).MatchString x = true ↔ ∀ c ∈ x, p c = true := by
  induction x with
  | nil => simp [Regexp.MatchString, Regexp.matchEpsilon]
  | cons a x ih =>
    simp only [Regexp.MatchString, Regexp.deriv, Regexp.matchString_cat]
    by_cases hp : p a = true
    · simp only [hp, if_true, Regexp.matchString_epsilon, List.mem_cons, forall_eq_or_imp,
        true_and]
      rw [← ih]
      constructor
      · rintro ⟨t, u, h1, rfl, h3⟩
        simpa [h1] using h3
      · intro h
        exact ⟨[], x, rfl, rfl, h⟩
    · simp only [hp, Bool.false_eq_true, if_false, Regexp.matchString_empty, false_and,
        and_false, exists_false, List.mem_cons, forall_eq_or_imp, false_iff]

/-- The strings matched by `stringRegex`: a quote, an interior without line feed, a
quote. -/
theorem stringRegex_matchString_iff (s : Str) :
    stringRegex.MatchString s = true ↔ ∃ x, s = '\'' :: x ++ ['\''] ∧ '\n' ∉ x := by
  simp only [stringRegex, Regexp.matchString_cat, Regexp.matchString_cls,
    Regexp.matchString_star_cls]
  constructor
  · rintro ⟨t, u, rfl, ⟨c, rfl, hc⟩, v, w, rfl, hv, ⟨d, rfl, hd⟩⟩
    refine ⟨v, ?_, ?_⟩
    · simp only [beq_iff_eq] at hc hd
      simp [hc, hd]
    · intro hm
      have := hv _ hm
      simp at this
  · rintro ⟨x, rfl, hx⟩
    refine ⟨['\''], x ++ ['\''], by simp, ⟨'\'', rfl, by simp⟩, x, ['\''], rfl, ?_,
      ⟨'\'', rfl, by simp⟩⟩
    intro c hc
    simp only [bne_iff_ne, ne_eq]
    rintro rfl
    exact hx hc

/-- The strings matched by `integerRegex`: an optional sign and one or more digits. -/
theorem integerRegex_matchString_iff (s : Str) :
    integerRegex.MatchString s = true
      ↔ ∃ sign ds, s = sign ++ ds ∧ (sign = [] ∨ sign = ['+'] ∨ sign = ['-']) ∧
          ds ≠ [] ∧ ∀ c ∈ ds, isDigit c = true := by
  simp only [integerRegex, Regexp.matchString_cat, Regexp.matchString_cls,
    Regexp.matchString_star_cls, Regexp.matchString_alt, Regexp.matchString_epsilon]
  constructor
  · rintro ⟨t, u, rfl, ht, v, w, rfl, ⟨d, rfl, hd⟩, hw⟩
    refine ⟨t, [d] ++ w, rfl, ?_, by simp, ?_⟩
    · rcases ht with ⟨c, rfl, hc⟩ | rfl
      · simp only [Bool.or_eq_true, beq_iff_eq] at hc
        rcases hc with rfl | rfl <;> simp
      · simp
    · intro c hc
      rcases List.mem_append.1 hc with h | h
      · simp only [List.mem_singleton] at h
        exact h ▸ hd
      · exact hw c h
  · rintro ⟨sign, ds, rfl, hsign, hne, hds⟩
    obtain ⟨d, w, rfl⟩ := List.exists_cons_of_ne_nil hne
    refine ⟨sign, d :: w, rfl, ?_, [d], w, rfl, ⟨d, rfl, hds d (by simp)⟩, ?_⟩
    · rcases hsign with rfl | rfl | rfl
      · right; rfl
      · left; exact ⟨'+', rfl, by simp⟩
      · left; exact ⟨'-', rfl, by simp⟩
    · intro c hc
      exact hds c (by simp [hc])

/-! ## Lemmas: `strconv.ParseInt` on digits -/

theorem le_foldl_digits (ds : Str) (n : Nat) :
    n ≤ ds.foldl (fun n c => 10 * n + (c.toNat - '0'.toNat)) n := by
  induction ds generalizing n with
  | nil => simp
  | cons c cs ih =>
    simp only [List.foldl_cons]
    exact le_trans (by omega) (ih _)

theorem parseUintLoop_of_digits (ds : Str) (n : Nat)
    (hd : ∀ c ∈ ds, isDigit c = true)
    (hle : ds.foldl (fun n c => 10 * n + (c.toNat - '0'.toNat)) n ≤ maxUint64) :
    parseUintLoop ds n
      = (ds.foldl (fun n c => 10 * n + (c.toNat - '0'.toNat)) n, none) := by
  induction ds generalizing n with
  | nil => simp [parseUintLoop]
  | cons c cs ih =>
    simp only [List.foldl_cons] at hle ⊢
    have h1 := le_trans (le_foldl_digits cs _) hle
    have hm : maxUint64 = 18446744073709551615 := by norm_num [maxUint64]
    rw [hm] at h1
    have hc : isDigit c = true := hd c (by simp)
    have e1 : (n * 10) % 2 ^ 64 = 10 * n := by
      rw [Nat.mod_eq_of_lt (by norm_num; omega)]; omega
    have e2 : (10 * n + (c.toNat - '0'.toNat)) % 2 ^ 64 = 10 * n + (c.toNat - '0'.toNat) :=
      Nat.mod_eq_of_lt (by norm_num; omega)
    have c1 : ¬ (n ≥ maxUint64 / 10 + 1) := by rw [hm]; omega
    have c2 : ¬ (10 * n + (c.toNat - '0'.toNat) < 10 * n
        ∨ 10 * n + (c.toNat - '0'.toNat) > maxUint64) := by rw [hm]; omega
    rw [parseUintLoop]
    simp only [hc, if_true, c1, if_false, e1, e2, c2]
    exact ih _ (fun c h => hd c (by simp [h])) hle

theorem strconvParseUint_of_digits (ds : Str) (hne : ds ≠ [])
    (hd : ∀ c ∈ ds, isDigit c = true) (hle : digitsValue ds ≤ maxUint64) :
    strconvParseUint ds = (digitsValue ds, none) := by
  unfold strconvParseUint
  rw [if_neg hne]
  exact parseUintLoop_of_digits ds 0 hd hle

theorem isDigit_not_sign (c : Char) (h : isDigit c = true) : c ≠ '+' ∧ c ≠ '-' := by
  constructor <;> rintro rfl <;> revert h <;> decide

/-- On a string matching `integerRegex` whose denoted integer is in the range of `int64`,
`strconv.ParseInt` returns that integer and no error. -/
theorem strconvParseInt_of_match (s : Str) (hm : integerRegex.MatchString s = true)
    (hlo : -(2 : Int) ^ 63 ≤ denotedInteger s) (hhi : denotedInteger s < (2 : Int) ^ 63) :
    strconvParseInt s = (denotedInteger s, none) := by
  obtain ⟨sign, ds, rfl, hsign, hne, hds⟩ := (integerRegex_matchString_iff s).1 hm
  have hmax : maxUint64 = 18446744073709551615 := by norm_num [maxUint64]
  obtain ⟨d, w, rfl⟩ := List.exists_cons_of_ne_nil hne
  rcases hsign with rfl | rfl | rfl
  · obtain ⟨hp, hmn⟩ := isDigit_not_sign d (hds d (by simp))
    simp only [List.nil_append, denotedInteger, hmn, hp, if_false] at hlo hhi ⊢
    have hu := strconvParseUint_of_digits (d :: w) (by simp) hds
      (by rw [hmax]; norm_num at hhi; omega)
    simp only [strconvParseInt, hp, hmn, or_self, if_false, hu]
    simp
    norm_num at hhi
    omega
  · simp only [List.singleton_append, denotedInteger] at hlo hhi ⊢
    simp only [show ('+' : Char) ≠ '-' by decide, if_false, if_true] at hlo hhi ⊢
    have hu := strconvParseUint_of_digits (d :: w) (by simp) hds
      (by rw [hmax]; norm_num at hhi; omega)
    simp only [strconvParseInt, true_or, if_true, hu]
    simp
    norm_num at hhi
    omega
  · simp only [List.singleton_append, denotedInteger, if_true] at hlo hhi ⊢
    have hu := strconvParseUint_of_digits (d :: w) (by simp) hds
      (by rw [hmax]; norm_num at hlo; omega)
    simp only [strconvParseInt, or_true, if_true, hu]
    simp
    norm_num at hlo
    omega

/-! ## Lemmas: the loop body of `ReadHeader` -/

theorem slice_quoted (x : Str) :
    slice ('\'' :: x ++ ['\'']) 1 ((('\'' :: x ++ ['\'']).length : Int) - 1) = .ok x :=
  slice_of_eq _ ['\''] x ['\''] _ _ (by simp) (by simp) (by simp; omega)

theorem integerRegex_ne_nil (s : Str) (h : integerRegex.MatchString s = true) : s ≠ [] := by
  obtain ⟨sign, ds, rfl, -, hne, -⟩ := (integerRegex_matchString_iff s).1 h
  simp [hne]

theorem integerRegex_not_stringRegex (s : Str) (h : integerRegex.MatchString s = true) :
    stringRegex.MatchString s = false := by
  obtain ⟨sign, ds, rfl, hsign, hne, hds⟩ := (integerRegex_matchString_iff s).1 h
  obtain ⟨d, w, rfl⟩ := List.exists_cons_of_ne_nil hne
  rw [Bool.eq_false_iff]
  intro hq
  obtain ⟨x, hx, -⟩ := (stringRegex_matchString_iff _).1 hq
  have hd : isDigit d = true := hds d (by simp)
  rcases hsign with rfl | rfl | rfl
  · simp only [List.nil_append, List.cons_append, List.cons.injEq] at hx
    rw [hx.1] at hd
    revert hd
    decide
  · simp only [List.cons_append, List.nil_append, List.cons.injEq] at hx
    exact absurd hx.1 (by decide)
  · simp only [List.cons_append, List.nil_append, List.cons.injEq] at hx
    exact absurd hx.1 (by decide)

/-- The loop body of `ReadHeader` never fails: it stores the inferred value of the record
under its name, or leaves the header as it is when no rule recognises the value. -/
theorem keywordStep_eq (parseFloat : Str → Option Float) (h : Header) (kw : FITSKeyword) :
    keywordStep parseFloat h kw
      = .ok (match inferredValue parseFloat kw.Value with
             | some v => h.set kw.Name v
             | none => h) := by
  unfold keywordStep inferredValue
  by_cases h0 : kw.Value = []
  · simp [h0]
  · have hlen : ¬ (kw.Value.length = 0) := by simpa using h0
    simp only [hlen, h0, if_false]
    by_cases hq : stringRegex.MatchString kw.Value = true
    · obtain ⟨x, hx, -⟩ := (stringRegex_matchString_iff _).1 hq
      simp only [hq, if_true]
      rw [hx, slice_quoted]
      simp
    · simp only [hq, Bool.false_eq_true, if_false]
      by_cases hi : integerRegex.MatchString kw.Value = true
      · simp [hi]
      · simp only [hi, Bool.false_eq_true, if_false]
        by_cases hT : kw.Value = ['T']
        · simp [hT]
        · by_cases hF : kw.Value = ['F']
          · simp [hF]
          · simp only [hT, hF, if_false]
            cases parseFloat kw.Value <;> rfl

theorem keywordLoop_eq (parseFloat : Str → Option Float) (kws : List FITSKeyword)
    (h0 : Header) :
    ∃ h, keywordLoop parseFloat kws h0 = .ok h ∧
      ∀ n, h n = match lastRecognised parseFloat kws n with
                 | some v => some v
                 | none => h0 n := by
  induction kws generalizing h0 with
  | nil => exact ⟨h0, rfl, fun n => rfl⟩
  | cons kw kws ih =>
    obtain ⟨h, hh, hn⟩ := ih (match inferredValue parseFloat kw.Value with
                               | some v => h0.set kw.Name v
                               | none => h0)
    refine ⟨h, ?_, ?_⟩
    · simp only [keywordLoop, keywordStep_eq, bind, Except.bind]
      exact hh
    · intro n
      rw [hn n]
      simp only [lastRecognised]
      cases lastRecognised parseFloat kws n with
      | some v => rfl
      | none =>
        simp only
        cases hv : inferredValue parseFloat kw.Value with
        | none => simp
        | some v =>
          simp only [Header.set]
          by_cases hk : n = kw.Name
          · simp [hk]
          · have hk' : ¬ kw.Name = n := fun e => hk e.symm
            simp [hk, hk']

theorem lastRecognised_isSome (parseFloat : Str → Option Float) (kws : List FITSKeyword)
    (n : Str) :
    (lastRecognised parseFloat kws n).isSome = true
      ↔ ∃ kw ∈ kws, kw.Name = n ∧ (inferredValue parseFloat kw.Value).isSome = true := by
  induction kws with
  | nil => simp [lastRecognised]
  | cons kw kws ih =>
    simp only [lastRecognised, List.mem_cons, exists_eq_or_imp]
    cases hl : lastRecognised parseFloat kws n with
    | some v =>
      rw [hl] at ih
      simp only [Option.isSome_some, true_iff] at ih ⊢
      exact Or.inr ih
    | none =>
      rw [hl] at ih
      simp only [Option.isSome_none, Bool.false_eq_true, false_iff] at ih
      by_cases hk : kw.Name = n
      · simp [hk, ih]
      · simp [hk, ih]

/-! ## Theorems: the type inference of `ReadHeader` -/

/-- C4 (counterexample): the value string `9223372036854775808` matches the integer
pattern and denotes 2^63, but `strconv.ParseInt` returns a range error with the value
2^63 - 1, and that is the integer stored under the keyword. -/
theorem keywordStep_integer_counterexample :
    integerRegex.MatchString "9223372036854775808".toList = true ∧
    denotedInteger "9223372036854775808".toList = 9223372036854775808 ∧
    strconvParseInt "9223372036854775808".toList
      = (9223372036854775807, some .ErrRange) ∧
    keywordStep noFloat emptyHeader ⟨"N".toList, "9223372036854775808".toList, []⟩
      = .ok (emptyHeader.set "N".toList (.int 9223372036854775807)) := by
  refine ⟨by decide, by decide, by decide, ?_⟩
  rw [keywordStep_eq]
  have h : inferredValue noFloat "9223372036854775808".toList
      = some (.int 9223372036854775807) := by
    have h1 : stringRegex.MatchString "9223372036854775808".toList = false := by decide
    have h2 : integerRegex.MatchString "9223372036854775808".toList = true := by decide
    have h3 : strconvParseInt "9223372036854775808".toList
        = (9223372036854775807, some .ErrRange) := by decide
    simp only [inferredValue, h1, h2, h3]
    simp
  rw [h]

/-- C4 (amended): for every value string that matches the integer pattern and whose
denoted integer lies in the signed 64-bit range, the base-10 signed 64-bit parse succeeds
with exactly that integer, and the loop body of `ReadHeader` maps the keyword to
`Integer` of it. -/
theorem keywordStep_integer (parseFloat : Str → Option Float) (h : Header)
    (name comment s : Str) (hm : integerRegex.MatchString s = true)
    (hlo : -(2 : Int) ^ 63 ≤ denotedInteger s) (hhi : denotedInteger s < (2 : Int) ^ 63) :
    strconvParseInt s = (denotedInteger s, none) ∧
    keywordStep parseFloat h { Name := name, Value := s, Comment := comment }
      = .ok (h.set name (.int (denotedInteger s))) := by
  have hp := strconvParseInt_of_match s hm hlo hhi
  refine ⟨hp, ?_⟩
  rw [keywordStep_eq]
  simp only [inferredValue, integerRegex_ne_nil s hm, integerRegex_not_stringRegex s hm, hm,
    hp, if_false, if_true, Bool.false_eq_true]

/-- C4 (witness): `-12` gives `Integer(-12)`, and `600` gives `Integer(600)`. -/
theorem keywordStep_integer_witness :
    (strconvParseInt "-12".toList = (denotedInteger "-12".toList, none) ∧
      keywordStep noFloat emptyHeader ⟨"N".toList, "-12".toList, []⟩
        = .ok (emptyHeader.set "N".toList (.int (denotedInteger "-12".toList)))) ∧
    denotedInteger "-12".toList = -12 ∧
    denotedInteger "600".toList = 600 ∧
    strconvParseInt "600".toList = (600, none) :=
  ⟨keywordStep_integer noFloat emptyHeader "N".toList [] "-12".toList
    (by decide) (by decide) (by decide), by decide, by decide, by decide⟩

/-- C9 (counterexample): the value `'a`, line feed, `b'` is a quote, an interior and a
quote, but `stringRegex` does not match it (its `.` excludes the line feed), no other rule
recognises it (`strconv.ParseFloat` fails on a string that starts with a quote), and the
keyword is not stored at all. -/
theorem keywordStep_quoted_counterexample :
    "'a\nb'".toList = '\'' :: "a\nb".toList ++ ['\''] ∧
    stringRegex.MatchString "'a\nb'".toList = false ∧
    keywordStep noFloat emptyHeader ⟨"N".toList, "'a\nb'".toList, []⟩ = .ok emptyHeader := by
  refine ⟨by decide, by decide, ?_⟩
  rw [keywordStep_eq]
  have h : inferredValue noFloat "'a\nb'".toList = none := by
    have h1 : stringRegex.MatchString "'a\nb'".toList = false := by decide
    have h2 : integerRegex.MatchString "'a\nb'".toList = false := by decide
    simp only [inferredValue, h1, h2, noFloat]
    simp
  rw [h]

/-- C9 (amended): for every string `x` that contains no line feed (other white space and
further single quotes are allowed), the loop body of `ReadHeader` maps a keyword whose
value is `'x'` to `Text(x)`: the two surrounding quotes are removed and the interior is
kept exactly. -/
theorem keywordStep_quoted (parseFloat : Str → Option Float) (h : Header)
    (name comment x : Str) (hx : '\n' ∉ x) :
    keywordStep parseFloat h { Name := name, Value := '\'' :: x ++ ['\''], Comment := comment }
      = .ok (h.set name (.str x)) := by
  have hq : stringRegex.MatchString ('\'' :: x ++ ['\'']) = true :=
    (stringRegex_matchString_iff _).2 ⟨x, rfl, hx⟩
  unfold keywordStep
  simp only [hq, if_true, slice_quoted]
  simp

/-- C9 (witness): `'L'` gives `Text("L")`; the interior ` it's ` with spaces and a
quote is kept as it is. -/
theorem keywordStep_quoted_witness :
    keywordStep noFloat emptyHeader ⟨"FILTER".toList, '\'' :: "L".toList ++ ['\''], []⟩
      = .ok (emptyHeader.set "FILTER".toList (.str "L".toList)) ∧
    keywordStep noFloat emptyHeader ⟨"NOTE".toList, '\'' :: " it's ".toList ++ ['\''], []⟩
      = .ok (emptyHeader.set "NOTE".toList (.str " it's ".toList)) :=
  ⟨keywordStep_quoted noFloat emptyHeader "FILTER".toList [] "L".toList (by decide),
   keywordStep_quoted noFloat emptyHeader "NOTE".toList [] " it's ".toList (by decide)⟩

/-- C10: whenever the binary prefix is read and the payload parses as XML, `ReadHeader`
succeeds; for each name the resulting map holds the value inferred from the last record
of that name that the inference rules recognise (a record no rule recognises is skipped
and does not fail the decode), and a name is a key of the map exactly when at least one
record of that name is recognised. -/
theorem ReadHeader_last_recognised_wins (xmlUnmarshal : List Nat → Option Xisf)
    (parseFloat : Str → Option Float) (d : Decoder) (rawHeader : List Nat) (img : Xisf)
    (hraw : d.readRawHeader = .ok rawHeader) (hxml : xmlUnmarshal rawHeader = some img) :
    ∃ h, Decoder.ReadHeader xmlUnmarshal parseFloat d = .ok h ∧
      (∀ n, h n = lastRecognised parseFloat img.Image.FITSKeywords n) ∧
      (∀ n, (h n).isSome = true
        ↔ ∃ kw ∈ img.Image.FITSKeywords,
            kw.Name = n ∧ (inferredValue parseFloat kw.Value).isSome = true) := by
  obtain ⟨h, hh, hn⟩ := keywordLoop_eq parseFloat img.Image.FITSKeywords (fun _ => none)
  have hn' : ∀ n, h n = lastRecognised parseFloat img.Image.FITSKeywords n := by
    intro n
    rw [hn n]
    cases lastRecognised parseFloat img.Image.FITSKeywords n <;> rfl
  refine ⟨h, ?_, hn', ?_⟩
  · simp only [Decoder.ReadHeader, hraw, bind, Except.bind, hxml]
    exact hh
  · intro n
    rw [hn' n]
    exact lastRecognised_isSome parseFloat _ n

/-- C10 (witness): a stream with the signature, the length 2, four reserved bytes and a
two-byte payload, decoded to the records `FILTER = 'L'`, `FILTER = ?`, `EXPTIME = 600`:
the unrecognised `?` is skipped, so `FILTER` holds `Text("L")`. -/
theorem ReadHeader_last_recognised_wins_witness :
    (∃ h, Decoder.ReadHeader sampleUnmarshal noFloat
          { rdr := signatureBytes ++ [2, 0, 0, 0, 0, 0, 0, 0, 60, 62] } = .ok h ∧
      (∀ n, h n = lastRecognised noFloat
          [⟨"FILTER".toList, "'L'".toList, []⟩, ⟨"FILTER".toList, "?".toList, []⟩,
           ⟨"EXPTIME".toList, "600".toList, []⟩] n) ∧
      (∀ n, (h n).isSome = true
        ↔ ∃ kw ∈ [(⟨"FILTER".toList, "'L'".toList, []⟩ : FITSKeyword),
                  ⟨"FILTER".toList, "?".toList, []⟩, ⟨"EXPTIME".toList, "600".toList, []⟩],
            kw.Name = n ∧ (inferredValue noFloat kw.Value).isSome = true)) ∧
    lastRecognised noFloat
          [⟨"FILTER".toList, "'L'".toList, []⟩, ⟨"FILTER".toList, "?".toList, []⟩,
           ⟨"EXPTIME".toList, "600".toList, []⟩] "FILTER".toList
      = some (.str "L".toList) :=
  ⟨ReadHeader_last_recognised_wins sampleUnmarshal noFloat
      { rdr := signatureBytes ++ [2, 0, 0, 0, 0, 0, 0, 0, 60, 62] } [60, 62]
      { Image := { FITSKeywords :=
        [⟨"FILTER".toList, "'L'".toList, []⟩, ⟨"FILTER".toList, "?".toList, []⟩,
         ⟨"EXPTIME".toList, "600".toList, []⟩] } }
      (by decide) rfl, rfl⟩

/-! ## Lemmas: the binary prefix of `ReadHeader` -/

theorem Decoder.Read_prefix (a b : List Nat) (ha : a ≠ []) :
    (Decoder.mk (a ++ b)).Read a.length = (a, a.length, none, { rdr := b }) := by
  have hpos : 0 < a.length := List.length_pos.2 ha
  unfold Decoder.Read
  rw [if_neg (by omega), if_neg (by simp [ha])]
  simp

theorem Decoder.Read_short (s : List Nat) (count : Nat) (hs : s ≠ []) (hc : s.length < count) :
    (Decoder.mk s).Read count
      = (s ++ List.replicate (count - s.length) 0, s.length, none, { rdr := [] }) := by
  unfold Decoder.Read
  rw [if_neg (by omega), if_neg (by simp [hs])]
  have h1 : s.take count = s := List.take_of_length_le (by omega)
  have h2 : s.drop count = [] := List.drop_of_length_le (by omega)
  simp [h1, h2]

theorem Decoder.Read_nil (count : Nat) (hc : 0 < count) :
    (Decoder.mk []).Read count = (List.replicate count 0, 0, some .EOF, { rdr := [] }) := by
  unfold Decoder.Read
  rw [if_neg (by omega)]
  simp

theorem signatureBytes_length : signatureBytes.length = 8 := by decide

theorem littleEndianUint32_uint32LittleEndian (n : Nat) (h : n < 2 ^ 32) :
    littleEndianUint32 (uint32LittleEndian n) = n := by
  simp only [littleEndianUint32, uint32LittleEndian, List.getD_cons_zero, List.getD_cons_succ]
  norm_num at h ⊢
  omega

theorem checkSignature_ok (b : List Nat) :
    (Decoder.mk (signatureBytes ++ b)).checkSignature = (none, { rdr := b }) := by
  have h := Decoder.Read_prefix signatureBytes b (by decide)
  rw [signatureBytes_length] at h
  simp [Decoder.checkSignature, h, signatureBytes_length]

theorem getHeaderLength_ok (l b : List Nat) (hl : l.length = 4) :
    (Decoder.mk (l ++ b)).getHeaderLength = (littleEndianUint32 l, none, { rdr := b }) := by
  have h := Decoder.Read_prefix l b (by intro h; simp [h] at hl)
  rw [hl] at h
  simp [Decoder.getHeaderLength, h, hl]

theorem skipReserved_ok (r b : List Nat) (hr : r.length = 4) :
    (Decoder.mk (r ++ b)).skipReserved 4 = (none, { rdr := b }) := by
  have h := Decoder.Read_prefix r b (by intro h; simp [h] at hr)
  rw [hr] at h
  simp [Decoder.skipReserved, h, hr]

theorem readRawHeader_layout (l r b : List Nat) (hl : l.length = 4) (hr : r.length = 4) :
    (Decoder.mk (signatureBytes ++ l ++ r ++ b)).readRawHeader
      = (match (Decoder.mk b).Read (littleEndianUint32 l) with
         | (rawHeader, n, err, _) =>
           match err with
           | some err => .error err
           | none => if n ≠ littleEndianUint32 l then .error .invalidHeaderLength
                     else .ok rawHeader) := by
  simp only [Decoder.readRawHeader, List.append_assoc, checkSignature_ok,
    getHeaderLength_ok l _ hl, skipReserved_ok r _ hr]


theorem checkSignature_bad (s : List Nat) (h : s.length < 8 ∨ s.take 8 ≠ signatureBytes) :
    ∃ e, ((Decoder.mk s).checkSignature).1 = some e ∧
      (e = .EOF ∨ e = .invalidSignatureLength ∨ e = .invalidSignatureContent) := by
  by_cases h0 : s = []
  · subst h0
    exact ⟨.EOF, by simp [Decoder.checkSignature, Decoder.Read_nil], Or.inl rfl⟩
  · by_cases hlen : s.length < 8
    · refine ⟨.invalidSignatureLength, ?_, Or.inr (Or.inl rfl)⟩
      have hn8 : s.length ≠ 8 := by omega
      simp only [Decoder.checkSignature, Decoder.Read_short s 8 h0 hlen]
      simp [hn8]
    · have hne : s.take 8 ≠ signatureBytes := by
        rcases h with h | h
        · exact absurd h hlen
        · exact h
      refine ⟨.invalidSignatureContent, ?_, Or.inr (Or.inr rfl)⟩
      have hsplit : s = s.take 8 ++ s.drop 8 := (List.take_append_drop 8 s).symm
      have hl8 : (s.take 8).length = 8 := by simp; omega
      have hread := Decoder.Read_prefix (s.take 8) (s.drop 8) (by intro h; simp [h] at hl8)
      rw [← hsplit, hl8] at hread
      have hne2 : ¬ signatureBytes = s.take 8 := fun h => hne h.symm
      simp [Decoder.checkSignature, hread, hne2]

/-! ## Theorems: the binary prefix of `ReadHeader` -/

/-- C11: on a stream made of the signature `XISF0100`, four length bytes denoting `n` in
little-endian order, four reserved bytes and fewer than `n` further bytes, `ReadHeader`
returns an error (`io.EOF` when nothing follows, `invalid header length` otherwise) and no
header map; the error is the same whatever `xml.Unmarshal` would do, the truncated payload
is never parsed. -/
theorem ReadHeader_length_overrun (xmlUnmarshal : List Nat → Option Xisf)
    (parseFloat : Str → Option Float) (l r rest : List Nat)
    (hl : l.length = 4) (hr : r.length = 4) (hrest : rest.length < littleEndianUint32 l) :
    Decoder.ReadHeader xmlUnmarshal parseFloat { rdr := signatureBytes ++ l ++ r ++ rest }
      = .error (if rest = [] then .EOF else .invalidHeaderLength) := by
  have hraw : (Decoder.mk (signatureBytes ++ l ++ r ++ rest)).readRawHeader
      = .error (if rest = [] then .EOF else .invalidHeaderLength) := by
    rw [readRawHeader_layout _ _ _ hl hr]
    by_cases h0 : rest = []
    · subst h0
      rw [Decoder.Read_nil _ (by simpa using hrest)]
      simp
    · rw [Decoder.Read_short rest _ h0 hrest]
      simp [h0]
      omega
  simp only [Decoder.ReadHeader, hraw, bind, Except.bind]

/-- C11 (witness): the length bytes say 3 and two bytes follow; the length bytes say 3
and nothing follows. -/
theorem ReadHeader_length_overrun_witness :
    Decoder.ReadHeader sampleUnmarshal noFloat
        { rdr := signatureBytes ++ [3, 0, 0, 0] ++ [9, 9, 9, 9] ++ [60, 62] }
      = .error (if ([60, 62] : List Nat) = [] then .EOF else .invalidHeaderLength) ∧
    Decoder.ReadHeader sampleUnmarshal noFloat
        { rdr := signatureBytes ++ [3, 0, 0, 0] ++ [9, 9, 9, 9] ++ [] }
      = .error (if ([] : List Nat) = [] then .EOF else .invalidHeaderLength) :=
  ⟨ReadHeader_length_overrun sampleUnmarshal noFloat [3, 0, 0, 0] [9, 9, 9, 9] [60, 62]
      rfl rfl (by decide),
   ReadHeader_length_overrun sampleUnmarshal noFloat [3, 0, 0, 0] [9, 9, 9, 9] []
      rfl rfl (by decide)⟩

/-- C12: on a stream that is shorter than 8 bytes, or whose first 8 bytes are not the
bytes of `XISF0100`, `ReadHeader` fails (with `io.EOF`, `invalid signature length` or
`invalid signature content`) and returns no header map, whatever follows. -/
theorem ReadHeader_bad_signature (xmlUnmarshal : List Nat → Option Xisf)
    (parseFloat : Str → Option Float) (s : List Nat)
    (h : s.length < 8 ∨ s.take 8 ≠ signatureBytes) :
    ∃ e, Decoder.ReadHeader xmlUnmarshal parseFloat { rdr := s } = .error e ∧
      (e = .EOF ∨ e = .invalidSignatureLength ∨ e = .invalidSignatureContent) := by
  obtain ⟨e, hc, he⟩ := checkSignature_bad s h
  refine ⟨e, ?_, he⟩
  rcases hcs : (Decoder.mk s).checkSignature with ⟨o, d⟩
  rw [hcs] at hc
  simp only at hc
  subst hc
  simp only [Decoder.ReadHeader, Decoder.readRawHeader, hcs, bind, Except.bind]

/-- C12 (witness): the seven bytes `XISF010` (too short), and `XISF0101` followed by a
well-formed rest (wrong content). -/
theorem ReadHeader_bad_signature_witness :
    (∃ e, Decoder.ReadHeader sampleUnmarshal noFloat
          { rdr := [88, 73, 83, 70, 48, 49, 48] } = .error e ∧
      (e = .EOF ∨ e = .invalidSignatureLength ∨ e = .invalidSignatureContent)) ∧
    (∃ e, Decoder.ReadHeader sampleUnmarshal noFloat
          { rdr := [88, 73, 83, 70, 48, 49, 48, 49, 2, 0, 0, 0, 0, 0, 0, 0, 60, 62] }
        = .error e ∧
      (e = .EOF ∨ e = .invalidSignatureLength ∨ e = .invalidSignatureContent)) :=
  ⟨ReadHeader_bad_signature sampleUnmarshal noFloat [88, 73, 83, 70, 48, 49, 48]
      (Or.inl (by decide)),
   ReadHeader_bad_signature sampleUnmarshal noFloat
      [88, 73, 83, 70, 48, 49, 48, 49, 2, 0, 0, 0, 0, 0, 0, 0, 60, 62]
      (Or.inr (by decide))⟩

/-- C13: for every payload `p` of `n < 2^32` bytes, every four reserved bytes `r` and
every trailing bytes `t`, `ReadHeader` on `XISF0100`, `n` as an unsigned 32-bit
little-endian integer, `r`, `p`, `t` is exactly what parsing `p` as the XML header and
running the keyword loop on its records gives; `r` and `t` do not enter the result. -/
theorem ReadHeader_binary_layout (xmlUnmarshal : List Nat → Option Xisf)
    (parseFloat : Str → Option Float) (n : Nat) (r p t : List Nat)
    (hn : n < 2 ^ 32) (hr : r.length = 4) (hp : p.length = n) :
    Decoder.ReadHeader xmlUnmarshal parseFloat
        { rdr := signatureBytes ++ uint32LittleEndian n ++ r ++ (p ++ t) }
      = match xmlUnmarshal p with
        | none => .error .xmlError
        | some img => keywordLoop parseFloat img.Image.FITSKeywords (fun _ => none) := by
  have hraw : (Decoder.mk (signatureBytes ++ uint32LittleEndian n ++ r ++ (p ++ t))).readRawHeader
      = .ok p := by
    rw [readRawHeader_layout _ _ _ (by simp [uint32LittleEndian]) hr,
      littleEndianUint32_uint32LittleEndian n hn]
    by_cases h0 : p = []
    · subst h0
      simp only [List.length_nil] at hp
      subst hp
      simp [Decoder.Read]
    · subst hp
      rw [Decoder.Read_prefix p t h0]
      simp
  simp only [Decoder.ReadHeader, hraw, bind, Except.bind]

/-- C13 (witness): a payload of two bytes, reserved bytes `9 9 9 9`, one trailing
byte. -/
theorem ReadHeader_binary_layout_witness :
    Decoder.ReadHeader sampleUnmarshal noFloat
        { rdr := signatureBytes ++ uint32LittleEndian 2 ++ [9, 9, 9, 9] ++ ([60, 62] ++ [7]) }
      = (match sampleUnmarshal [60, 62] with
         | none => .error .xmlError
         | some img => keywordLoop noFloat img.Image.FITSKeywords (fun _ => none)) ∧
    uint32LittleEndian 2 = [2, 0, 0, 0] :=
  ⟨ReadHeader_binary_layout sampleUnmarshal noFloat 2 [9, 9, 9, 9] [60, 62] [7]
      (by decide) rfl rfl, by decide⟩

/-! ## Lemmas: the rendering of a resolved value -/

theorem convert_of_resolved {Time : Type} (lib : GoLib Time)
    (defaults overrides : defaultMap) (als : Str → Option (List Str)) (hdr : Header)
    (k format : Str) (v : Value)
    (hres : resolvedValue defaults overrides hdr k = v)
    (hnil : v.isNil = false) (hemp : v.isEmptyString = false) :
    token.convert lib defaults overrides als { raw := false, header := k, format := format } hdr
      = token.convertSwitch lib { raw := false, header := k, format := format } v := by
  subst hres
  have key : ∀ w : Value, w.isNil = false → w.isEmptyString = false →
      (if (w.isNil || w.isEmptyString) = true then
        (if ((match als k with
              | some as => aliasLoop defaults hdr w as
              | none => w).isNil
            || (match als k with
              | some as => aliasLoop defaults hdr w as
              | none => w).isEmptyString) = true
          then Except.error (Fatal.missingHeader k)
          else token.convertSwitch lib { raw := false, header := k, format := format }
            (match als k with
              | some as => aliasLoop defaults hdr w as
              | none => w))
       else token.convertSwitch lib { raw := false, header := k, format := format } w)
      = token.convertSwitch lib { raw := false, header := k, format := format } w := by
    intro w h1 h2
    simp [h1, h2]
  unfold resolvedValue at hnil hemp ⊢
  unfold token.convert headerOrDefault defaultMap.index
  simp only [Bool.false_eq_true, if_false]
  cases ho : overrides k with
  | some o =>
    simp only [ho] at hnil hemp
    exact key _ hnil hemp
  | none =>
    simp only [ho] at hnil hemp
    cases hh : hdr k with
    | none =>
      simp only [hh] at hnil hemp
      exact key _ hnil hemp
    | some w =>
      simp only [hh] at hnil hemp
      cases w <;> exact key _ hnil hemp

theorem stringsIndex_pos_of_mem (c : Char) (f : Str) (hm : c ∈ f) (hh : f.head? ≠ some c) :
    stringsIndex f [c] > 0 := by
  cases f with
  | nil => simp at hm
  | cons x xs =>
    have hx : ¬ c = x := by
      intro h
      exact hh (by simp [h])
    have hxs : c ∈ xs := by
      rcases List.mem_cons.1 hm with h | h
      · exact absurd h hx
      · exact h
    obtain ⟨p, r, hs, hp⟩ := exists_first_occurrence c xs hxs
    rw [stringsIndex_cons, if_neg hx, hs, stringsIndex_append_cons c p r hp]
    have : ¬ ((p.length : Int) < 0) := by omega
    rw [if_neg this]
    omega

theorem stringsIndex_not_pos_of_not_mem (c : Char) (f : Str) (hm : c ∉ f) :
    ¬ stringsIndex f [c] > 0 := by
  rw [stringsIndex_of_not_mem c f hm]
  omega

/-! ## Theorems: the rendering of `token.convert` -/

/-- C14: when the value resolved for the keyword is a non-empty text `v` and the format
does not start with `date`, the placeholder renders as `v` with leading and trailing
white space removed, whatever the format is (a numeric format such as `%0.2f`
included). -/
theorem convert_text_ignores_format {Time : Type} (lib : GoLib Time)
    (defaults overrides : defaultMap) (als : Str → Option (List Str)) (hdr : Header)
    (k v format : Str)
    (hres : resolvedValue defaults overrides hdr k = .str v) (hv : v ≠ [])
    (hfmt : stringsHasPrefix format "date".toList = false) :
    token.convert lib defaults overrides als { raw := false, header := k, format := format } hdr
      = .ok (stringsTrimSpace v) := by
  obtain ⟨c, cs, rfl⟩ := List.exists_cons_of_ne_nil hv
  rw [convert_of_resolved lib defaults overrides als hdr k format _ hres rfl rfl]
  simp only [token.convertSwitch, hfmt]
  simp

/-- C14 (witness): `FILTER = Text(" L ")` with the format `%0.2f` renders as `L`. -/
theorem convert_text_ignores_format_witness :
    token.convert noLib emptyMap emptyMap aliases
        { raw := false, header := "FILTER".toList, format := "%0.2f".toList }
        (emptyHeader.set "FILTER".toList (.str " L ".toList))
      = .ok (stringsTrimSpace " L ".toList) ∧
    stringsTrimSpace " L ".toList = "L".toList :=
  ⟨convert_text_ignores_format noLib emptyMap emptyMap aliases _ "FILTER".toList
      " L ".toList "%0.2f".toList rfl (by decide) (by decide), by decide⟩

/-- C15 (counterexample): with the format `f%.1f`, which has `f` as its first character,
the integer 5 is handed to the format as an integer, not converted to floating point
(`tagLib` shows the type of the argument it is given). -/
theorem convert_integer_leading_f_counterexample :
    token.convert tagLib emptyMap emptyMap aliases
        { raw := false, header := "N".toList, format := "f%.1f".toList }
        (emptyHeader.set "N".toList (.int 5))
      = .ok (tagLib.sprintf "f%.1f".toList (.int 5)) ∧
    tagLib.sprintf "f%.1f".toList (.int 5)
      ≠ tagLib.sprintf "f%.1f".toList (.float64 (Float.ofInt 5)) := by
  refine ⟨by decide, by decide⟩


/-- C15 (amended): for every resolved Integer value `n` and every format `f` that does
not start with the character `f`: with an empty `f` the output is `%d` applied to `n`
(its plain decimal representation); if `f` contains the character `f` the output is `f`
applied to `n` converted to floating point; and if `f` does not contain `f` the output is
`f` applied to the integer `n` itself. -/
theorem convert_integer {Time : Type} (lib : GoLib Time)
    (defaults overrides : defaultMap) (als : Str → Option (List Str)) (hdr : Header)
    (k f : Str) (n : Int)
    (hres : resolvedValue defaults overrides hdr k = .int n)
    (hf : f.head? ≠ some 'f') :
    token.convert lib defaults overrides als { raw := false, header := k, format := f } hdr
      = .ok (if f = [] then lib.sprintf "%d".toList (.int n)
             else if 'f' ∈ f then lib.sprintf f (.float64 (Float.ofInt n))
             else lib.sprintf f (.int n)) := by
  rw [convert_of_resolved lib defaults overrides als hdr k f _ hres rfl rfl]
  simp only [token.convertSwitch, convertInt, bind, Except.bind]
  by_cases h0 : f = []
  · simp [h0]
  · by_cases hm : 'f' ∈ f
    · simp only [h0, if_false, stringsIndex_pos_of_mem 'f' f hm hf, if_true, hm]
    · simp only [h0, if_false, stringsIndex_not_pos_of_not_mem 'f' f hm, hm]

/-- C15 (witness): the integer 600 with the format `%0.2f` is converted to floating
point; with `%05d` it is passed as an integer; and with no format it goes to `%d`. -/
theorem convert_integer_witness :
    token.convert tagLib emptyMap emptyMap aliases
        { raw := false, header := "N".toList, format := "%0.2f".toList }
        (emptyHeader.set "N".toList (.int 600))
      = .ok (if "%0.2f".toList = [] then tagLib.sprintf "%d".toList (.int 600)
             else if 'f' ∈ "%0.2f".toList then
               tagLib.sprintf "%0.2f".toList (.float64 (Float.ofInt 600))
             else tagLib.sprintf "%0.2f".toList (.int 600)) ∧
    token.convert tagLib emptyMap emptyMap aliases
        { raw := false, header := "N".toList, format := "%0.2f".toList }
        (emptyHeader.set "N".toList (.int 600))
      = .ok "%0.2f(float64)".toList ∧
    token.convert tagLib emptyMap emptyMap aliases
        { raw := false, header := "N".toList, format := "%05d".toList }
        (emptyHeader.set "N".toList (.int 600))
      = .ok "%05d(int64)".toList ∧
    token.convert tagLib emptyMap emptyMap aliases
        { raw := false, header := "N".toList, format := [] }
        (emptyHeader.set "N".toList (.int 600))
      = .ok "%d(int64)".toList :=
  ⟨convert_integer tagLib emptyMap emptyMap aliases _ "N".toList "%0.2f".toList 600
      rfl (by decide), by decide, by decide, by decide⟩

/-- C16: for every library whose `time.ParseInLocation` (on the two layouts of
`token.convert`), `Time.Unix`, `Time.Format` (on the layout `2006-01-02`) and
`fmt.Sprintf("%d", n)` are the modelled ones, the text `2023-05-01T01:02:03.5Z` and the
same text without the trailing `Z` both render as `2023-05-01` with the format
`date2006-01-02` and as `1682902923` with the format `dateunix`. -/
theorem convert_date_rendering (lib : GoLib Time)
    (defaults overrides : defaultMap) (als : Str → Option (List Str)) (hdr : Header)
    (k v : Str)
    (hpZ : ∀ x, lib.parseInLocationUTC layoutZ x = timeParseInLocationUTC layoutZ x)
    (hpN : ∀ x, lib.parseInLocationUTC layoutNoZ x = timeParseInLocationUTC layoutNoZ x)
    (hu : ∀ t, lib.unix t = t.Unix)
    (hf : ∀ t, lib.format t "2006-01-02".toList = t.Format "2006-01-02".toList)
    (hs : ∀ n, lib.sprintf "%d".toList (.int n) = formatDecimal n)
    (hv : v = "2023-05-01T01:02:03.5Z".toList ∨ v = "2023-05-01T01:02:03.5".toList)
    (hres : resolvedValue defaults overrides hdr k = .str v) :
    token.convert lib defaults overrides als
        { raw := false, header := k, format := "date2006-01-02".toList } hdr
      = .ok "2023-05-01".toList ∧
    token.convert lib defaults overrides als
        { raw := false, header := k, format := "dateunix".toList } hdr
      = .ok "1682902923".toList := by
  have hne : v ≠ [] := by
    rcases hv with rfl | rfl <;> decide
  obtain ⟨c, cs, hc⟩ := List.exists_cons_of_ne_nil hne
  have hemp : (Value.str v).isEmptyString = false := by
    rw [hc]; rfl
  have e1 : timeParseInLocationUTC layoutZ "2023-05-01T01:02:03.5Z".toList
      = some ⟨2023, 5, 1, 1, 2, 3, 500000000⟩ := by decide
  have e2 : timeParseInLocationUTC layoutZ "2023-05-01T01:02:03.5".toList = none := by
    decide
  have e3 : timeParseInLocationUTC layoutNoZ "2023-05-01T01:02:03.5".toList
      = some ⟨2023, 5, 1, 1, 2, 3, 500000000⟩ := by decide
  have e4 : (⟨2023, 5, 1, 1, 2, 3, 500000000⟩ : Time).Unix = 1682902923 := by decide
  have e5 : (⟨2023, 5, 1, 1, 2, 3, 500000000⟩ : Time).Format "2006-01-02".toList
      = "2023-05-01".toList := by decide
  have e6 : formatDecimal 1682902923 = "1682902923".toList := by decide
  have p1 : stringsHasPrefix "date2006-01-02".toList "date".toList = true := by decide
  have p2 : stringsHasPrefix "dateunix".toList "date".toList = true := by decide
  have n1 : ¬ ("date2006-01-02".toList = "dateunix".toList) := by decide
  have d1 : "date2006-01-02".toList.drop 4 = "2006-01-02".toList := by decide
  rw [convert_of_resolved lib defaults overrides als hdr k _ _ hres rfl hemp,
    convert_of_resolved lib defaults overrides als hdr k _ _ hres rfl hemp]
  rcases hv with rfl | rfl
  · simp only [token.convertSwitch, p1, p2, if_true, hpZ, e1, n1, if_false, d1, hf, e5, hu,
      e4, hs, e6, and_self]
  · simp only [token.convertSwitch, p1, p2, if_true, hpZ, hpN, e2, e3, n1, if_false, d1, hf,
      e5, hu, e4, hs, e6, and_self]

/-- C16 (witness): `DATE-OBS = Text("2023-05-01T01:02:03.5Z")` with the library of the
model. -/
theorem convert_date_rendering_witness :
    token.convert timeLib emptyMap emptyMap aliases
        { raw := false, header := "DATE-OBS".toList, format := "date2006-01-02".toList }
        (emptyHeader.set "DATE-OBS".toList (.str "2023-05-01T01:02:03.5Z".toList))
      = .ok "2023-05-01".toList ∧
    token.convert timeLib emptyMap emptyMap aliases
        { raw := false, header := "DATE-OBS".toList, format := "dateunix".toList }
        (emptyHeader.set "DATE-OBS".toList (.str "2023-05-01T01:02:03.5Z".toList))
      = .ok "1682902923".toList :=
  convert_date_rendering timeLib emptyMap emptyMap aliases _ "DATE-OBS".toList
    "2023-05-01T01:02:03.5Z".toList (fun _ => rfl) (fun _ => rfl) (fun _ => rfl)
    (fun _ => rfl) (fun _ => rfl) (Or.inl rfl) rfl

/-- C20: when the header holds the empty text for the keyword and there is no override,
the placeholder fails with the missing-header error, whatever the defaults hold: the
value carried on is the empty text of the header, not the default. -/
theorem convert_empty_text_blocks_default {Time : Type} (lib : GoLib Time)
    (defaults overrides : defaultMap) (als : Str → Option (List Str)) (hdr : Header)
    (k format : Str) (hh : hdr k = some (.str [])) (ho : overrides k = none) :
    token.convert lib defaults overrides als { raw := false, header := k, format := format } hdr
      = .error (.missingHeader k) ∧
    headerOrDefault defaults hdr k = .str [] := by
  have hval : headerOrDefault defaults hdr k = .str [] := by
    simp [headerOrDefault, hh, Value.isNil]
  refine ⟨?_, hval⟩
  have hal : ∀ as, aliasLoop defaults hdr (.str []) as = .str [] := by
    intro as
    induction as with
    | nil => rfl
    | cons a as ih =>
      simp only [aliasLoop]
      split_ifs
      · rfl
      · exact ih
  simp only [token.convert, hval, ho]
  cases als k with
  | none => simp [Value.isNil, Value.isEmptyString]
  | some as => simp [Value.isNil, Value.isEmptyString, hal]

/-- C20 (witness): the XISF value `''` is decoded to the empty text, and with
`FILTER = Text("")` in the header the default `FILTER = L` is not used. -/
theorem convert_empty_text_blocks_default_witness :
    (token.convert noLib (fun k => if k = "FILTER".toList then some "L".toList else none)
        emptyMap aliases { raw := false, header := "FILTER".toList, format := [] }
        (emptyHeader.set "FILTER".toList (.str []))
      = .error (.missingHeader "FILTER".toList) ∧
    headerOrDefault (fun k => if k = "FILTER".toList then some "L".toList else none)
        (emptyHeader.set "FILTER".toList (.str [])) "FILTER".toList = .str []) ∧
    inferredValue noFloat "''".toList = some (.str []) ∧
    headerOrDefault (fun k => if k = "FILTER".toList then some "L".toList else none)
        emptyHeader "FILTER".toList = .str "L".toList ∧
    headerOrDefault (fun k => if k = "FILTER".toList then some "L".toList else none)
        (emptyHeader.set "FILTER".toList .nil) "FILTER".toList = .str "L".toList :=
  ⟨convert_empty_text_blocks_default noLib _ emptyMap aliases _ "FILTER".toList [] rfl rfl,
   rfl, rfl, rfl⟩

/-! ## Theorems: frame classification in `handleFile` -/

theorem classify_eq_some_iff (s : Str) (c : FrameClass) :
    classify s = some c ↔ s ∈ recognisedSpellings c := by
  unfold classify
  split_ifs with h1 h2 h3 h4
  · rcases h1 with rfl | rfl | rfl | rfl <;> cases c <;> decide
  · rcases h2 with rfl | rfl | rfl <;> cases c <;> decide
  · rcases h3 with rfl | rfl | rfl <;> cases c <;> decide
  · rcases h4 with rfl | rfl | rfl <;> cases c <;> decide
  · simp only [not_or] at h1 h2 h3 h4
    cases c <;> simp [recognisedSpellings] <;>
      first | exact h1 | exact h2 | exact h3 | exact h4

/-- The frame class of a header: when `IMAGETYP` is present and not `nil`, the class is
`c` exactly when that value is a text equal to one of the recognised spellings of `c`
(`FRAME` is not consulted); when `IMAGETYP` is missing or `nil`, exactly when the value
of `FRAME` is such a text. -/
theorem frameClass_spec (hdr : Header) :
    (∀ v, hdr "IMAGETYP".toList = some v → v.isNil = false →
      ∀ c, frameClass hdr = some c ↔ ∃ s, v = .str s ∧ s ∈ recognisedSpellings c) ∧
    ((hdr "IMAGETYP".toList = none ∨ hdr "IMAGETYP".toList = some .nil) →
      ∀ c, frameClass hdr = some c
        ↔ ∃ s, hdr "FRAME".toList = some (.str s) ∧ s ∈ recognisedSpellings c) := by
  refine ⟨?_, ?_⟩
  · intro v hv hnil c
    unfold frameClass
    rw [hv]
    cases v <;> simp_all [Value.isNil, classify_eq_some_iff]
  · intro h c
    have ht : frameClass hdr = (match hdr "FRAME".toList with
        | none => none
        | some (.str imgType) => classify imgType
        | some _ => none) := by
      unfold frameClass
      rcases h with h | h
      · rw [h]
      · rw [h]; rfl
    rw [ht]
    cases hF : hdr "FRAME".toList with
    | none => simp
    | some w => cases w <;> simp [classify_eq_some_iff]

/-- Without `-debug`, `handleFile` does what the frame class says: a file without a class
is skipped; a file of class `c` is skipped when no format is given for `c` and is
otherwise rendered with the tokens of `c`. -/
theorem handleFile_without_debug {Time : Type} (lib : GoLib Time)
    (defaults overrides : defaultMap) (als : Str → Option (List Str)) (noSpace : Bool)
    (tokensByType : FrameClass → List token) (keys : List Str) (hdr : Header) :
    handleFile lib defaults overrides als false noSpace tokensByType keys hdr
      = match frameClass hdr with
        | none => .ok none
        | some c =>
          if tokensByType c = [] then .ok none
          else (renderLoop lib defaults overrides als noSpace hdr (tokensByType c) []).map
            some := by
  unfold handleFile
  simp only [Bool.false_eq_true, if_false, bind, Except.bind, pure, Except.pure]
  cases frameClass hdr with
  | none => rfl
  | some c =>
    simp only
    split_ifs
    · rfl
    · cases renderLoop lib defaults overrides als noSpace hdr (tokensByType c) [] <;> rfl

/-- With `-debug`, a header that holds `nil` (or a value of a type the debug block does
not list) under one of its keys makes `handleFile` panic before the frame class is looked
at. -/
theorem handleFile_debug_panics {Time : Type} (lib : GoLib Time)
    (defaults overrides : defaultMap) (als : Str → Option (List Str)) (noSpace : Bool)
    (tokensByType : FrameClass → List token) (keys : List Str) (hdr : Header)
    (h : ∃ key ∈ keys, hdr key = some .nil ∨ hdr key = some .other) :
    handleFile lib defaults overrides als true noSpace tokensByType keys hdr
      = .error .panic := by
  have hloop : debugLoop hdr keys = .error .panic := by
    induction keys with
    | nil => simp at h
    | cons key keys ih =>
      obtain ⟨k, hk, hv⟩ := h
      rcases List.mem_cons.1 hk with rfl | hk
      · rcases hv with hv | hv <;> simp [debugLoop, hv]
      · have := ih ⟨k, hk, hv⟩
        simp only [debugLoop]
        cases hdr key with
        | none => exact this
        | some w => cases w <;> first | exact this | rfl
  unfold handleFile
  simp only [if_true, hloop, bind, Except.bind]

/-- C17 (evaluation at the failing input): the header `IMAGETYP: nil, FRAME: "Dark"` has
the frame class Dark, and without `-debug` the file is rendered with the Dark format;
with `-debug` the same call panics in the debug block, before `IMAGETYP` and `FRAME` are
read. -/
theorem handleFile_debug_nil_panics :
    frameClass ((emptyHeader.set "FRAME".toList (.str "Dark".toList)).set
        "IMAGETYP".toList .nil) = some .DARK ∧
    handleFile noLib emptyMap emptyMap aliases false false
        (fun c => if c = .DARK then [⟨true, "dark".toList, []⟩] else [])
        ["IMAGETYP".toList, "FRAME".toList]
        ((emptyHeader.set "FRAME".toList (.str "Dark".toList)).set "IMAGETYP".toList .nil)
      = .ok (some "dark".toList) ∧
    handleFile noLib emptyMap emptyMap aliases true false
        (fun c => if c = .DARK then [⟨true, "dark".toList, []⟩] else [])
        ["IMAGETYP".toList, "FRAME".toList]
        ((emptyHeader.set "FRAME".toList (.str "Dark".toList)).set "IMAGETYP".toList .nil)
      = .error .panic := by
  refine ⟨by decide, by decide, by decide⟩

/-! ## Theorems: totality and well-formedness of `scanForTokens` -/

theorem scanLoop_progress (data : Str) (i fuel : Nat) (toks : List token)
    (hi : i < data.length) :
    (∃ ts, scanLoop data (fuel + 1) (i : Int) toks = .ok ts) ∨
    ∃ (j : Nat) (toks2 : List token), i < j ∧ j ≤ data.length ∧
      scanLoop data (fuel + 1) (i : Int) toks = scanLoop data fuel (j : Int) toks2 := by
  have hd : data = data.take i ++ data.drop i := (List.take_append_drop i data).symm
  have hlen : (data.take i).length = i := by simp; omega
  generalize hpre : data.take i = pre at hd hlen
  generalize hrest : data.drop i = rest at hd
  subst hd
  subst hlen
  rcases scan_shapes rest with h | ⟨l, r, hs, hl, hl1⟩ | ⟨r, hs, hr⟩ |
      ⟨k, r, hs, hk1, hk2⟩ | ⟨k, f, r, hs, hk1, hk2, hf⟩
  · have hne : rest ≠ [] := by
      rintro rfl
      simp at hi
    exact Or.inl ⟨_, scanLoop_no_open pre rest fuel toks hne h⟩
  · subst hs
    have hlpos : 0 < l.length := List.length_pos.2 hl
    exact Or.inr ⟨(pre ++ l).length, _, by simp; omega, by simp,
      scanLoop_literal pre l r fuel toks hl hl1⟩
  · subst hs
    exact Or.inl ⟨_, scanLoop_no_close pre r fuel toks hr⟩
  · subst hs
    exact Or.inr ⟨(pre ++ ('{' :: k ++ ['}'])).length, _, by simp, by simp,
      scanLoop_placeholder_plain pre k r fuel toks hk1 hk2⟩
  · subst hs
    exact Or.inr ⟨(pre ++ ('{' :: k ++ ':' :: f ++ ['}'])).length, _, by simp,
      by simp, scanLoop_placeholder_format pre k f r fuel toks hk1 hk2 hf⟩

/-- C18: `scanForTokens` is total: on every input it returns a token list, so no slice
expression is out of range and the fuel of the model is never used up; every iteration of
its loop at an index inside the string either ends the loop with a result or goes on at a
strictly greater index that is at most the length; and the inputs `{X`, `}`, `{}`, `{:}`
and `a}b{` are tokenized without error. -/
theorem scanForTokens_total :
    (∀ data : Str, ∃ ts, scanForTokens data = .ok ts) ∧
    (∀ (data : Str) (i fuel : Nat) (toks : List token), i < data.length →
      (∃ ts, scanLoop data (fuel + 1) (i : Int) toks = .ok ts) ∨
      ∃ (j : Nat) (toks2 : List token), i < j ∧ j ≤ data.length ∧
        scanLoop data (fuel + 1) (i : Int) toks = scanLoop data fuel (j : Int) toks2) ∧
    scanForTokens "\x7bX".toList = .ok [⟨true, "\x7bX".toList, []⟩] ∧
    scanForTokens "\x7d".toList = .ok [⟨true, "\x7d".toList, []⟩] ∧
    scanForTokens "\x7b\x7d".toList = .ok [⟨false, [], []⟩] ∧
    scanForTokens "\x7b:\x7d".toList = .ok [⟨false, [], []⟩] ∧
    scanForTokens "a\x7db\x7b".toList
      = .ok [⟨true, "a\x7db".toList, []⟩, ⟨true, "\x7b".toList, []⟩] := by
  refine ⟨?_, scanLoop_progress, by decide, by decide, by decide, by decide, by decide⟩
  intro data
  obtain ⟨ts, h, -⟩ := scanLoop_suffix data
  exact ⟨ts, h⟩

theorem scanForTokens_wellFormed_aux (n : Nat) :
    ∀ s : Str, s.length = n →
      ∃ ts, scanForTokens s = .ok ts ∧ (∀ t ∈ ts, t.wellFormed) ∧ (ts = [] ↔ s = []) := by
  induction n using Nat.strong_induction_on with
  | _ n ih =>
    intro s hn
    rcases scan_shapes s with h | ⟨l, r, hs, hl, hl1⟩ | ⟨r, hs, hr⟩ |
        ⟨k, r, hs, hk1, hk2⟩ | ⟨k, f, r, hs, hk1, hk2, hf⟩
    · by_cases hnil : s = []
      · subst hnil
        exact ⟨[], scanForTokens_nil, by simp, by simp⟩
      · exact ⟨_, scanForTokens_no_open s hnil h, by simp [token.wellFormed, hnil],
          by simp [hnil]⟩
    · subst hs
      have hlpos : 0 < l.length := List.length_pos.2 hl
      obtain ⟨ts, h1, h2⟩ := scanForTokens_literal l r hl hl1
      obtain ⟨ts', h1', hw, -⟩ := ih ('{' :: r).length (by rw [← hn]; simp; omega)
        ('{' :: r) rfl
      have : ts' = ts := by
        rw [h1] at h1'
        exact (Except.ok.inj h1').symm
      subst this
      refine ⟨_, h2, ?_, by simp [hl]⟩
      intro t ht
      rcases List.mem_cons.1 ht with rfl | ht
      · simp [token.wellFormed, hl]
      · exact hw t ht
    · subst hs
      exact ⟨_, scanForTokens_no_close r hr, by simp [token.wellFormed], by simp⟩
    · subst hs
      obtain ⟨ts, h1, h2⟩ := scanForTokens_placeholder_plain k r hk1 hk2
      obtain ⟨ts', h1', hw, -⟩ := ih r.length (by rw [← hn]; simp; omega) r rfl
      have : ts' = ts := by
        rw [h1] at h1'
        exact (Except.ok.inj h1').symm
      subst this
      refine ⟨_, h2, ?_, by simp⟩
      intro t ht
      rcases List.mem_cons.1 ht with rfl | ht
      · simp [token.wellFormed, hk1, hk2]
      · exact hw t ht
    · subst hs
      obtain ⟨ts, h1, h2⟩ := scanForTokens_placeholder_format k f r hk1 hk2 hf
      obtain ⟨ts', h1', hw, -⟩ := ih r.length (by rw [← hn]; simp; omega) r rfl
      have : ts' = ts := by
        rw [h1] at h1'
        exact (Except.ok.inj h1').symm
      subst this
      refine ⟨_, h2, ?_, by simp⟩
      intro t ht
      rcases List.mem_cons.1 ht with rfl | ht
      · simp [token.wellFormed, hk1, hk2, hf]
      · exact hw t ht

/-- C19: for every input `scanForTokens` returns tokens that are all well formed (a
literal has non-empty text, a placeholder keyword contains neither `}` nor `:`, a
placeholder format contains no `}`), and the token list is empty exactly when the input
is the empty string. -/
theorem scanForTokens_wellFormed (s : Str) :
    ∃ ts, scanForTokens s = .ok ts ∧ (∀ t ∈ ts, t.wellFormed) ∧ (ts = [] ↔ s = []) :=
  scanForTokens_wellFormed_aux s.length s rfl


end Fitsrename
